import Mathlib

/-! The typing-practice game typer, embedded shallowly.

The Go program (main.go, rand.go) drives a tcell screen from a blocking event
stream.  The embedding makes both explicit:

* the screen is the ordered log of the calls made on it (`Op`);
* the event stream is a list of `Event`s, and every `Run` method is a function
  from the events still to come to an `Outcome` (still polling, returned the
  next mode, or panicked on an index out of range);
* Go strings are the lists of runes that ranging over them yields, and `len`
  of a string is the number of bytes of its UTF-8 encoding;
* Go `int` values are `Int` (the counters of the program stay far from the
  64-bit limits: each changes by one per event); in wpm, where a product is
  formed, the 64-bit wrap is explicit;
* Go `float64` values that are finite and not negative are pairs of a mantissa
  and a binary exponent, and each float64 operation rounds its exact result to
  nearest, ties to even, computed in integer arithmetic.

Library code the program calls but does not contain is a parameter of the
embedding (`Env`): the screen size, the vocabulary of the english package, the
rune width table of go-runewidth, and the wall clock with the rendering of the
status line.
-/

namespace Typer

/-! ## Runes and strings -/

/-- Go rune, as a Unicode code point. -/
abbrev Rune := Nat

/-- Go string, as the runes that `for _, r := range s` yields. -/
abbrev Str := List Rune

/-- Runes of a string literal of the source. -/
def str (s : String) : Str := s.toList.map Char.toNat

/-- Go conversion `string(r)`: the one-rune string, U+FFFD for an invalid code point. -/
def runeString (r : Rune) : Str :=
  if r < 0xD800 ∨ (0xE000 ≤ r ∧ r ≤ 0x10FFFF) then [r] else [0xFFFD]

/-- Number of bytes of the UTF-8 encoding of a rune. -/
def runeLen (r : Rune) : Nat :=
  if r < 0x80 then 1 else if r < 0x800 then 2 else if r < 0x10000 then 3 else 4

/-- Go `len(s)` of a string: its length in bytes. -/
def len (s : Str) : Int := ((s.map runeLen).sum : Nat)

/-- Go `strings.Repeat(string(r), n)` for a one-rune string. -/
def strRepeat (r : Rune) (n : Int) : Str := List.replicate n.toNat r

/-- Go `unicode.IsSpace`: the Latin-1 spaces, then the White_Space code points. -/
def IsSpace (r : Rune) : Bool :=
  if r ≤ 0xFF then
    decide (r = 9 ∨ r = 10 ∨ r = 11 ∨ r = 12 ∨ r = 13 ∨ r = 32 ∨ r = 0x85 ∨ r = 0xA0)
  else
    decide (r = 0x1680 ∨ (0x2000 ≤ r ∧ r ≤ 0x200a) ∨ r = 0x2028 ∨ r = 0x2029 ∨
      r = 0x202f ∨ r = 0x205f ∨ r = 0x3000)

/-! ## The screen -/

/-- Colours of tcell that the program names. -/
inductive Color
  | ColorDefault
  | ColorRed
  | ColorYellow
deriving DecidableEq, Repr

/-- A tcell.Style: foreground, background and attribute bits. -/
structure Style where
  fg : Color
  bg : Color
  attrs : Nat
deriving DecidableEq, Repr

/-- The zero Style that `setup` declares with `var style tcell.Style`. -/
def Style.zero : Style := ⟨Color.ColorDefault, Color.ColorDefault, 0⟩

/-- Method `style.Foreground(c)`: the same style with the foreground replaced. -/
def Style.Foreground (s : Style) (c : Color) : Style := ⟨c, s.bg, s.attrs⟩

/-- One call on the tcell.Screen. -/
inductive Op
  | SetContent (x y : Int) (mainc : Rune) (combc : List Rune) (style : Style)
  | ShowCursor (x y : Int)
  | HideCursor
  | Sync
  | Clear
deriving DecidableEq, Repr

/-- The call `s.SetContent(x+i, y, deferred[0], deferred[1:], style)` that puts
makes under the guard `len(deferred) != 0`. -/
def flushDeferred (style : Style) (x y i : Int) (deferred : List Rune) : List Op :=
  match deferred with
  | [] => []
  | d :: ds => [Op.SetContent (x + i) y d ds style]

/-- The loop of puts (main.go 303-340) followed by the final flush (341-344);
the arguments after the string are the locals `i`, `deferred`, `dwidth`, `zwj`.
`rw` is runewidth.RuneWidth. -/
def putsLoop (rw : Rune → Nat) (style : Style) (x y : Int) :
    Str → Int → List Rune → Int → Bool → List Op
  | [], i, deferred, _, _ => flushDeferred style x y i deferred
  | r :: rest, i, deferred, dwidth, zwj =>
    if r = 0x200d then
      if deferred = [] then
        putsLoop rw style x y rest i ([32] ++ [r]) 1 true
      else
        putsLoop rw style x y rest i (deferred ++ [r]) dwidth true
    else if zwj then
      putsLoop rw style x y rest i (deferred ++ [r]) dwidth false
    else
      match rw r with
      | 0 =>
        if deferred = [] then
          putsLoop rw style x y rest i ([32] ++ [r]) 1 false
        else
          putsLoop rw style x y rest i (deferred ++ [r]) dwidth false
      | 1 =>
        flushDeferred style x y i deferred ++
          putsLoop rw style x y rest (if deferred = [] then i else i + dwidth) [r] 1 false
      | 2 =>
        flushDeferred style x y i deferred ++
          putsLoop rw style x y rest (if deferred = [] then i else i + dwidth) [r] 2 false
      | _ =>
        putsLoop rw style x y rest i (deferred ++ [r]) dwidth false

/-- Function puts (main.go 298-345): the screen calls it makes. -/
def puts (rw : Rune → Nat) (style : Style) (x y : Int) (s : Str) : List Op :=
  putsLoop rw style x y s 0 [] 0 false

/-- Function putexp (main.go 291-296). -/
def putexp (rw : Rune → Nat) (style : Style) (x y : Int) (r : Rune) (exp : Bool) : List Op :=
  puts rw (if exp then style else style.Foreground Color.ColorRed) x y (runeString r)

/-! ## What the program takes from its libraries -/

/-- The parts of the run that come from outside the two source files. -/
structure Env where
  /-- Width returned by `screen.Size()`. -/
  w : Int
  /-- Height returned by `screen.Size()`. -/
  h : Int
  /-- The vocabulary `english.Words()`. -/
  words : List Str
  /-- The table `runewidth.RuneWidth`. -/
  rw : Rune → Nat
  /-- Wall clock: the reading of `time.Now()` while the n-th polled event is handled. -/
  clock : Nat → Nat
  /-- The line `fmt.Sprintf("%v word/min, %v", wpm(wordCount, start), time.Since(start))`
  that drawProgress renders from the word count, the start time and the clock. -/
  progressLine : Int → Nat → Nat → Str

/-! ## rand.go -/

/-- Function longestWord (rand.go 18-26), over the vocabulary. -/
def longestWord (words : List Str) : Int :=
  words.foldl (fun max word => if len word > max then len word else max) 0

/-! ## Drawing helpers of main.go -/

/-- Rows `lo, lo+1, ...` below `hi`: the values of `y` in `for y := lo; y < hi; y++`. -/
def rows (lo hi : Int) : List Int := (List.range (hi - lo).toNat).map (fun k => lo + (k : Int))

/-- Function clearDisplay (main.go 210-216). -/
def clearDisplay (env : Env) (style : Style) : List Op :=
  (rows 0 (Int.tdiv env.h 2)).flatMap (fun y => puts env.rw style 0 y (strRepeat 32 env.w))

/-- Function clearInput (main.go 218-224). -/
def clearInput (env : Env) (style : Style) : List Op :=
  (rows (Int.tdiv env.h 2 + 1) (env.h - 2)).flatMap
    (fun y => puts env.rw style 0 y (strRepeat 32 env.w))

/-- Function drawProgress (main.go 226-230); `now` is the clock while it runs. -/
def drawProgress (env : Env) (style : Style) (wordCount : Int) (start now : Nat) : List Op :=
  puts env.rw style 0 (env.h - 1) (env.progressLine wordCount start now)

/-- Function drawLines (main.go 238-243); tcell.RuneHLine is U+2500. -/
def drawLines (env : Env) (style : Style) : List Op :=
  puts env.rw style 0 (Int.tdiv env.h 2) (strRepeat 0x2500 env.w) ++
    puts env.rw style 0 (env.h - 2) (strRepeat 0x2500 env.w)

/-- Strips one trailing carriage return, as bufio's dropCR does. -/
def dropCR (line : Str) : Str :=
  if line.getLast? = some 13 then line.dropLast else line

/-- The tokens of a bufio.Scanner with the default ScanLines split: the text is
cut at every newline, and what follows the last newline is a line if non-empty.
`cur` holds the runes of the line being read, last first. -/
def scanLines : Str → Str → List Str
  | [], cur => if cur = [] then [] else [dropCR cur.reverse]
  | c :: cs, cur =>
    if c = 10 then dropCR cur.reverse :: scanLines cs [] else scanLines cs (c :: cur)

/-- The loop of centerText over the scanned lines, `row` counting up. -/
def centerLines (env : Env) (style : Style) : Int → List Str → List Op
  | _, [] => []
  | row, line :: more =>
    puts env.rw style (Int.tdiv env.w 2 - Int.tdiv (len line) 2) row line ++
      centerLines env style (row + 1) more

/-- Function centerText (main.go 249-259). -/
def centerText (env : Env) (style : Style) (y : Int) (text : Str) : List Op :=
  centerLines env style y (scanLines text [])

/-- The successive results of `r.ReadString(' ')` on the text: each word runs up
to and including the next space; the last one is what remains at end of input
(possibly empty) and is the one returned with `io.EOF`.
`cur` holds the runes of the word being read, last first. -/
def readStrings : Str → Str → List Str
  | [], cur => [cur.reverse]
  | c :: cs, cur =>
    if c = 32 then (c :: cur).reverse :: readStrings cs [] else readStrings cs (c :: cur)

/-- A call `puts(screen, style, lx, ly, word)` made by fillText. -/
structure Placed where
  lx : Int
  ly : Int
  word : Str
deriving DecidableEq, Repr

/-- The loop of fillText (main.go 265-278) over the words read: the calls of
puts it makes, in order.  It ends with the word read at end of input. -/
def fillLoop (w x : Int) : Int → Int → List Str → List Placed
  | _, _, [] => []
  | lx, ly, word :: more =>
    let width := len word
    if lx + width ≥ w - 1 then
      ⟨x, ly + 1, word⟩ :: fillLoop w x (x + width) (ly + 1) more
    else
      ⟨lx, ly, word⟩ :: fillLoop w x (lx + width) ly more

/-- The calls of puts that `fillText(screen, style, x, y, text)` makes on a
screen of width `w`. -/
def fillTextCalls (w x y : Int) (text : Str) : List Placed :=
  fillLoop w x x y (readStrings text [])

/-- Function fillText (main.go 261-279): its screen calls. -/
def fillText (env : Env) (style : Style) (x y : Int) (text : Str) : List Op :=
  (fillTextCalls env.w x y text).flatMap (fun p => puts env.rw style p.lx p.ly p.word)

/-! ## Modes and events -/

/-- The constants of tcell.Key that some Run method matches on, KeyRune (a typed
character), and every other key constant (arrows, function keys, Tab, Esc, ...)
under its tcell code. -/
inductive Key
  | KeyCtrlC
  | KeyCtrlD
  | KeyCtrlN
  | KeyBackspace2
  | KeyEnter
  | KeyRune
  | KeyOther (code : Nat)
deriving DecidableEq, Repr

/-- What `screen.PollEvent()` returns: a key event with `ev.Key()` and
`ev.Rune()`, a resize event, or an event of another type. -/
inductive Event
  | EventKey (key : Key) (ch : Rune)
  | EventResize
  | EventOther
deriving DecidableEq, Repr

/-- The three implementations of the Mode interface; each holds the screen and
the style, which the embedding passes separately. -/
inductive Mode
  | HelpView
  | GameView
  | GameOver
deriving DecidableEq, Repr

/-- Effect of one iteration of a mode's event loop on the loop state `σ`. -/
inductive Step (σ : Type)
  /-- The loop goes on to the next PollEvent. -/
  | next (s : σ)
  /-- Run returns; `none` is the nil Mode. -/
  | ret (mode : Option Mode) (screen : List Op)
  /-- The goroutine panics (index out of range). -/
  | panic (screen : List Op)
deriving DecidableEq, Repr

/-- Result of a Run over a finite list of events. -/
inductive Outcome (σ : Type)
  /-- All events were consumed; Run is blocked in PollEvent in state `s`. -/
  | polling (s : σ)
  /-- Run returned `mode`, leaving `rest` unread. -/
  | returned (mode : Option Mode) (screen : List Op) (rest : List Event)
  /-- Run panicked, leaving `rest` unread. -/
  | panicked (screen : List Op) (rest : List Event)
deriving DecidableEq, Repr

/-- The constant help (main.go 179-182). -/
def help : Str := str "\nNew game    Ctrl-n\nStop game   Ctrl-d\nQuit        Ctrl-c"

/-- The banner that GameOver.Run centers (main.go 125-127). -/
def gameOverText : Str :=
  str " Game Over \n Press ENTER to continue. \n                          "

/-- One iteration of the loop of HelpView.Run (main.go 160-170); the state is the screen. -/
def HelpView.handle (screen : List Op) : Event → Step (List Op)
  | Event.EventKey Key.KeyCtrlC _ => Step.ret none screen
  | Event.EventKey Key.KeyCtrlN _ => Step.ret (some Mode.GameView) screen
  | Event.EventKey _ _ => Step.next screen
  | Event.EventResize => Step.next (screen ++ [Op.Sync])
  | Event.EventOther => Step.next screen

/-- The event loop of HelpView.Run. -/
def HelpView.loop : List Op → List Event → Outcome (List Op)
  | screen, [] => Outcome.polling screen
  | screen, ev :: rest =>
    match HelpView.handle screen ev with
    | Step.next s => HelpView.loop s rest
    | Step.ret mode s => Outcome.returned mode s rest
    | Step.panic s => Outcome.panicked s rest

/-- Method HelpView.Run (main.go 154-173) on a screen with the calls `screen` made so far. -/
def HelpView.Run (env : Env) (style : Style) (screen : List Op) (events : List Event) :
    Outcome (List Op) :=
  HelpView.loop (screen ++ [Op.Clear] ++ centerText env style 1 help ++ [Op.Sync]) events

/-- One iteration of the loop of GameOver.Run (main.go 130-142). -/
def GameOver.handle (env : Env) (style : Style) (screen : List Op) : Event → Step (List Op)
  | Event.EventKey Key.KeyCtrlC _ => Step.ret none screen
  | Event.EventKey Key.KeyEnter _ =>
    Step.ret (some Mode.HelpView) (screen ++ clearDisplay env style ++ clearInput env style)
  | Event.EventKey _ _ => Step.next screen
  | Event.EventResize => Step.next (screen ++ [Op.Sync])
  | Event.EventOther => Step.next screen

/-- The event loop of GameOver.Run. -/
def GameOver.loop (env : Env) (style : Style) : List Op → List Event → Outcome (List Op)
  | screen, [] => Outcome.polling screen
  | screen, ev :: rest =>
    match GameOver.handle env style screen ev with
    | Step.next s => GameOver.loop env style s rest
    | Step.ret mode s => Outcome.returned mode s rest
    | Step.panic s => Outcome.panicked s rest

/-- Method GameOver.Run (main.go 123-145). -/
def GameOver.Run (env : Env) (style : Style) (screen : List Op) (events : List Event) :
    Outcome (List Op) :=
  GameOver.loop env style
    (screen ++ centerText env (style.Foreground Color.ColorYellow) 3 gameOverText ++ [Op.Sync])
    events

/-! ## GameView.Run -/

/-- Struct Position (main.go 205-208). -/
structure Position where
  x : Int
  y : Int
deriving DecidableEq, Repr

/-- The locals of GameView.Run that its loop changes, with the screen and the
number of events polled so far (the index into the wall clock). -/
structure Game where
  screen : List Op
  wordCount : Int
  pos : Position
  index : Int
  start : Nat
  started : Bool
  polled : Nat
deriving DecidableEq, Repr

/-- The element `rtext[index]`, `none` where Go panics with index out of range. -/
def runeAt (rtext : List Rune) (index : Int) : Option Rune :=
  if 0 ≤ index then rtext[index.toNat]? else none

/-- The state with which GameView.Run enters its loop (main.go 40-59) for the
practice text `text`, on a screen with the calls `screen` made so far. -/
def GameView.enter (env : Env) (style : Style) (screen : List Op) (text : Str) : Game :=
  { screen := screen ++ drawLines env style ++ clearDisplay env style ++
      fillText env style 0 0 text ++ [Op.ShowCursor 0 (Int.tdiv env.h 2 + 1)] ++
      puts env.rw (style.Foreground Color.ColorYellow) 0 (env.h - 1) (str "Start typing") ++
      [Op.Sync]
    wordCount := 0
    pos := ⟨0, Int.tdiv env.h 2 + 1⟩
    index := 0
    start := 0
    started := false
    polled := 0 }

/-- The Backspace case (main.go 71-77). -/
def GameView.backspace (env : Env) (style : Style) (s : Game) (ch : Rune) : Game :=
  let x := if s.pos.x - 1 < 0 then 0 else s.pos.x - 1
  { s with
    pos := ⟨x, s.pos.y⟩
    screen := s.screen ++ puts env.rw style x s.pos.y (runeString ch)
    index := s.index - 1 }

/-- The Enter case (main.go 78-80). -/
def GameView.enterKey (s : Game) : Game :=
  { s with pos := ⟨0, s.pos.y + 1⟩ }

/-- The first four statements of the default case (main.go 82-85), given the
expected rune `rtext[index]`: draw the typed rune, advance index and column. -/
def GameView.typeRune (env : Env) (style : Style) (s : Game) (expected r : Rune) : Game :=
  { s with
    screen := s.screen ++ putexp env.rw style s.pos.x s.pos.y r (expected == r)
    index := s.index + 1
    pos := ⟨s.pos.x + 1, s.pos.y⟩ }

/-- The rest of the default case (main.go 86-93): a space completes a word. -/
def GameView.spaceWrap (env : Env) (style : Style) (s : Game) (r : Rune) : Game :=
  if IsSpace r then
    let s1 : Game :=
      { s with
        wordCount := s.wordCount + 1
        screen := s.screen ++
          drawProgress env style (s.wordCount + 1) s.start (env.clock s.polled) }
    if s1.pos.x ≥ env.w - longestWord env.words then
      { s1 with pos := ⟨0, s1.pos.y + 1⟩ }
    else s1
  else s

/-- The inner switch on `ev.Key()` (main.go 63-94): `ret` and `panic` leave Run,
`next` falls through to the statements after the switch. -/
def GameView.keySwitch (env : Env) (style : Style) (rtext : List Rune) (s : Game)
    (key : Key) (ch : Rune) : Step Game :=
  match key with
  | Key.KeyCtrlC => Step.ret none s.screen
  | Key.KeyCtrlD =>
    Step.ret (some Mode.HelpView) (s.screen ++ clearInput env style ++ [Op.HideCursor])
  | Key.KeyBackspace2 => Step.next (GameView.backspace env style s ch)
  | Key.KeyEnter => Step.next (GameView.enterKey s)
  | _ =>
    match runeAt rtext s.index with
    | none => Step.panic s.screen
    | some expected =>
      Step.next (GameView.spaceWrap env style (GameView.typeRune env style s expected ch) ch)

/-- The statements after the switch (main.go 95-107): show the cursor, then the
completion check, then the start of the session on the first key. -/
def GameView.afterKey (env : Env) (style : Style) (rtext : List Rune) (s : Game) : Step Game :=
  let screen := s.screen ++ [Op.ShowCursor s.pos.x s.pos.y, Op.Sync]
  if s.index = (rtext.length : Int) then
    Step.ret (some Mode.GameOver) (screen ++ [Op.HideCursor])
  else if s.started then
    Step.next { s with screen := screen }
  else
    Step.next { s with
      screen := screen ++ puts env.rw style 0 (env.h - 1) (strRepeat 32 env.h)
      start := env.clock s.polled
      started := true }

/-- One iteration of the loop of GameView.Run (main.go 61-110). -/
def GameView.handle (env : Env) (style : Style) (rtext : List Rune) (s : Game) :
    Event → Step Game
  | Event.EventKey key ch =>
    match GameView.keySwitch env style rtext s key ch with
    | Step.next s1 => GameView.afterKey env style rtext s1
    | Step.ret mode screen => Step.ret mode screen
    | Step.panic screen => Step.panic screen
  | Event.EventResize => Step.next { s with screen := s.screen ++ [Op.Sync] }
  | Event.EventOther => Step.next s

/-- The event loop of GameView.Run: each PollEvent advances the clock index. -/
def GameView.loop (env : Env) (style : Style) (rtext : List Rune) :
    Game → List Event → Outcome Game
  | s, [] => Outcome.polling s
  | s, ev :: rest =>
    match GameView.handle env style rtext s ev with
    | Step.next s1 => GameView.loop env style rtext { s1 with polled := s1.polled + 1 } rest
    | Step.ret mode screen => Outcome.returned mode screen rest
    | Step.panic screen => Outcome.panicked screen rest

/-- Method GameView.Run (main.go 39-114) when `randomText()` returns `text`;
`rtext := []rune(text)` is `text` itself. -/
def GameView.Run (env : Env) (style : Style) (screen : List Op) (text : Str)
    (events : List Event) : Outcome Game :=
  GameView.loop env style text (GameView.enter env style screen text) events

/-- The key events of typing the runes of `s`, one KeyRune event per rune. -/
def typed (s : Str) : List Event := s.map (fun r => Event.EventKey Key.KeyRune r)

/-- A sample environment: a 20x8 screen, a two-word vocabulary, width 0 for
control runes and the zero-width joiner, 2 for U+1F000 and up, 1 otherwise. -/
def sampleEnv : Env :=
  { w := 20
    h := 8
    words := [str "cat", str "sat"]
    rw := fun r => if r < 32 ∨ r = 0x200d then 0 else if 0x1F000 ≤ r then 2 else 1
    clock := fun n => n
    progressLine := fun _ _ _ => [] }

/-! ## Shapes of input that the properties speak of -/

/-- Go `strings.Join(words, " ")`: a text made of space-separated words. -/
def joinWords : List Str → Str
  | [] => []
  | [wd] => wd
  | wd :: next :: more => wd ++ 32 :: joinWords (next :: more)

/-- The runes that follow the base rune in a zero-width-joiner sequence:
U+200D before each joined rune. -/
def zwjPairs : List Rune → List Rune
  | [] => []
  | j :: more => 0x200d :: j :: zwjPairs more

/-- What a finished Run handed back to main: the next mode (`none` is nil) and
the events it left unread; `none` while Run polls or after a panic. -/
def Outcome.exit {σ : Type} : Outcome σ → Option (Option Mode × List Event)
  | Outcome.polling _ => none
  | Outcome.returned mode _ rest => some (mode, rest)
  | Outcome.panicked _ _ => none

/-- The call `next.Run()` of main (main.go 27), dispatched on the dynamic type
of the mode; `text` is what randomText returns if the mode is a GameView. -/
def Mode.Run (mode : Mode) (env : Env) (style : Style) (screen : List Op) (text : Str)
    (events : List Event) : Option (Option Mode × List Event) :=
  match mode with
  | Mode.HelpView => (HelpView.Run env style screen events).exit
  | Mode.GameView => (GameView.Run env style screen text events).exit
  | Mode.GameOver => (GameOver.Run env style screen events).exit

/-! ## Function wpm: float64 arithmetic -/

/-- A finite float64 that is not negative, as the number `mant * 2^exp`. -/
structure Float64 where
  mant : Nat
  exp : Int
deriving DecidableEq, Repr

/-- The rational number a float64 stands for. -/
def Float64.toRat (f : Float64) : ℚ := (f.mant : ℚ) * (2 : ℚ) ^ f.exp

/-- The number of times `n` can be halved before it drops below 2, counting at
most `fuel` halvings. -/
def halvings : Nat → Nat → Nat
  | 0, _ => 0
  | fuel + 1, n => if n < 2 then 0 else halvings fuel (n / 2) + 1

/-- The binary logarithm of a positive natural number, rounded down. -/
def natLog2 (n : Nat) : Nat := halvings n n

/-- The exponent `e` with `2^e ≤ n/d < 2^(e+1)`, for positive `n` and `d`. -/
def floorLog2 (n d : Nat) : Int :=
  if d ≤ n then (natLog2 (n / d) : Int) else -((natLog2 ((d - 1) / n) : Int) + 1)

/-- The exponent of the unit in the last place of the float64 nearest to `n/d`:
53 significant bits, and the subnormal spacing `2^-1074` at the bottom. -/
def ulpExp (n d : Nat) : Int := max (floorLog2 n d - 52) (-1074)

/-- The quotient `sn/sd` rounded to the nearest integer, a tie to the even one. -/
def roundHalfEven (sn sd : Nat) : Nat :=
  if sd < 2 * (sn % sd) ∨ (2 * (sn % sd) = sd ∧ (sn / sd) % 2 = 1) then sn / sd + 1
  else sn / sd

/-- The positive number `n/d` rounded to float64 as Go rounds the result of
every float64 operation and conversion: IEEE 754 round to nearest, ties to even. -/
def roundNearest (n d : Nat) : Float64 :=
  let p := ulpExp n d
  let sn := if 0 ≤ p then n else n * 2 ^ (-p).toNat
  let sd := if 0 ≤ p then d * 2 ^ p.toNat else d
  ⟨roundHalfEven sn sd, p⟩

/-- The integer part of a float64, which the Go conversion `int(f)` keeps. -/
def Float64.trunc (f : Float64) : Nat :=
  if 0 ≤ f.exp then f.mant * 2 ^ f.exp.toNat else f.mant / 2 ^ (-f.exp).toNat

/-- Go `int` arithmetic on 64 bits: the result wrapped into `[-2^63, 2^63)`. -/
def wrapInt64 (n : Int) : Int := (n + 2 ^ 63) % 2 ^ 64 - 2 ^ 63

/-- Function wpm (main.go 232-236), given the float64 `sec` that
`time.Since(start).Seconds()` returns: `int(float64(words*60) / sec)`.
The result is `none` where Go leaves it to the implementation: the quotient is
infinite or not a number (`sec` is zero) or lies outside the range of `int`. -/
def wpm (words : Int) (sec : Float64) : Option Int :=
  let a := wrapInt64 (words * 60)
  if sec.mant = 0 then none
  else if a = 0 then some 0
  else
    let fa := roundNearest a.natAbs 1
    let e := fa.exp - sec.exp
    let n := if 0 ≤ e then fa.mant * 2 ^ e.toNat else fa.mant
    let d := if 0 ≤ e then sec.mant else sec.mant * 2 ^ (-e).toNat
    let q := (roundNearest n d).trunc
    if a < 0 then (if q ≤ 2 ^ 63 then some (-(q : Int)) else none)
    else (if q < 2 ^ 63 then some (q : Int) else none)

/-! ## Lemmas on the loop of GameView.Run -/

theorem spaceWrap_index (env : Env) (style : Style) (s : Game) (r : Rune) :
    (GameView.spaceWrap env style s r).index = s.index := by
  unfold GameView.spaceWrap
  dsimp only
  split_ifs <;> rfl

theorem typeRune_index (env : Env) (style : Style) (s : Game) (e r : Rune) :
    (GameView.typeRune env style s e r).index = s.index + 1 := rfl

theorem runeAt_of_drop (text : List Rune) (i : Nat) (r : Rune) (rem : List Rune)
    (h : text.drop i = r :: rem) : runeAt text (i : Int) = some r := by
  have h1 : (text.drop i).head? = some r := by rw [h]; rfl
  rw [List.head?_drop] at h1
  simp [runeAt, h1]

theorem length_of_drop (text : List Rune) (i : Nat) (r : Rune) (rem : List Rune)
    (h : text.drop i = r :: rem) : text.length = i + 1 + rem.length := by
  have h1 := congrArg List.length h
  simp at h1
  omega

theorem drop_succ_of_drop (text : List Rune) (i : Nat) (r : Rune) (rem : List Rune)
    (h : text.drop i = r :: rem) : text.drop (i + 1) = rem := by
  have h1 : (text.drop i).drop 1 = rem := by rw [h]; rfl
  rw [List.drop_drop] at h1
  rw [← h1, Nat.add_comm]

theorem afterKey_done (env : Env) (style : Style) (rtext : List Rune) (s : Game)
    (h : s.index = (rtext.length : Int)) :
    GameView.afterKey env style rtext s =
      Step.ret (some Mode.GameOver)
        (s.screen ++ [Op.ShowCursor s.pos.x s.pos.y, Op.Sync] ++ [Op.HideCursor]) := by
  simp [GameView.afterKey, h]

theorem afterKey_next (env : Env) (style : Style) (rtext : List Rune) (s : Game)
    (h : s.index ≠ (rtext.length : Int)) :
    ∃ s1, GameView.afterKey env style rtext s = Step.next s1 ∧ s1.index = s.index ∧
      s1.pos = s.pos ∧ s1.wordCount = s.wordCount ∧ s1.polled = s.polled := by
  unfold GameView.afterKey
  dsimp only
  rw [if_neg h]
  by_cases hs : s.started = true
  · rw [if_pos hs]
    exact ⟨_, rfl, rfl, rfl, rfl, rfl⟩
  · rw [if_neg hs]
    exact ⟨_, rfl, rfl, rfl, rfl, rfl⟩

theorem loop_typed_done (env : Env) (style : Style) (text : List Rune) :
    ∀ (rem : List Rune) (s : Game) (i : Nat), rem ≠ [] → s.index = (i : Int) →
      text.drop i = rem → ∀ extra : List Event,
      ∃ scr, GameView.loop env style text s (typed rem ++ extra) =
        Outcome.returned (some Mode.GameOver) scr extra := by
  intro rem
  induction rem with
  | nil => intro s i h; exact absurd rfl h
  | cons r rem ih =>
    intro s i _ hidx hdrop extra
    have hat := runeAt_of_drop text i r rem hdrop
    have hlen := length_of_drop text i r rem hdrop
    have hnext := drop_succ_of_drop text i r rem hdrop
    have hsw : GameView.keySwitch env style text s Key.KeyRune r =
        Step.next (GameView.spaceWrap env style (GameView.typeRune env style s r r) r) := by
      simp only [GameView.keySwitch, hidx, hat]
    have hi1 : (GameView.spaceWrap env style (GameView.typeRune env style s r r) r).index =
        ((i + 1 : Nat) : Int) := by
      rw [spaceWrap_index, typeRune_index, hidx]; push_cast; rfl
    by_cases hrem : rem = []
    · subst hrem
      have hfin : (GameView.spaceWrap env style (GameView.typeRune env style s r r) r).index =
          (text.length : Int) := by rw [hi1, hlen]; simp
      simp only [typed, List.map_cons, List.map_nil, List.cons_append, List.nil_append,
        GameView.loop, GameView.handle, hsw, afterKey_done env style text _ hfin]
      exact ⟨_, rfl⟩
    · have hne : (GameView.spaceWrap env style (GameView.typeRune env style s r r) r).index ≠
          (text.length : Int) := by
        rw [hi1, hlen]
        have : 0 < rem.length := List.length_pos.mpr hrem
        push_cast; omega
      obtain ⟨s1, hs1, hs1i, -⟩ := afterKey_next env style text _ hne
      obtain ⟨scr, hscr⟩ := ih { s1 with polled := s1.polled + 1 } (i + 1) hrem
        (by show s1.index = _; rw [hs1i, hi1]) hnext extra
      refine ⟨scr, ?_⟩
      simp only [typed, List.map_cons, List.cons_append, GameView.loop, GameView.handle, hsw, hs1]
      exact hscr

theorem loop_typed_polling (env : Env) (style : Style) (text : List Rune) :
    ∀ (rem : List Rune) (s : Game) (i n : Nat), s.index = (i : Int) →
      text.drop i = rem → n < rem.length →
      ∃ s1, GameView.loop env style text s (typed (rem.take n)) = Outcome.polling s1 ∧
        s1.index = ((i + n : Nat) : Int) := by
  intro rem
  induction rem with
  | nil => intro s i n _ _ hn; exact absurd hn (Nat.not_lt_zero _)
  | cons r rem ih =>
    intro s i n hidx hdrop hn
    cases n with
    | zero => exact ⟨s, rfl, by simpa using hidx⟩
    | succ n =>
      have hn1 : n < rem.length := by simpa using hn
      have hat := runeAt_of_drop text i r rem hdrop
      have hlen := length_of_drop text i r rem hdrop
      have hnext := drop_succ_of_drop text i r rem hdrop
      have hsw : GameView.keySwitch env style text s Key.KeyRune r =
          Step.next (GameView.spaceWrap env style (GameView.typeRune env style s r r) r) := by
        simp only [GameView.keySwitch, hidx, hat]
      have hi1 : (GameView.spaceWrap env style (GameView.typeRune env style s r r) r).index =
          ((i + 1 : Nat) : Int) := by
        rw [spaceWrap_index, typeRune_index, hidx]; push_cast; rfl
      have hne : (GameView.spaceWrap env style (GameView.typeRune env style s r r) r).index ≠
          (text.length : Int) := by
        rw [hi1, hlen]; push_cast; omega
      obtain ⟨s1, hs1, hs1i, -⟩ := afterKey_next env style text _ hne
      obtain ⟨s2, hs2, hs2i⟩ := ih { s1 with polled := s1.polled + 1 } (i + 1) n
        (by show s1.index = _; rw [hs1i, hi1]) hnext hn1
      refine ⟨s2, ?_, ?_⟩
      · simp only [typed, List.take_succ_cons, List.map_cons, GameView.loop, GameView.handle,
          hsw, hs1]
        exact hs2
      · rw [hs2i]; push_cast; omega

/-- C1: when the key events are exactly the runes of a non-empty practice text,
GameView.Run is still polling after every shorter run of keystrokes (with the
index equal to their number), the last keystroke brings the index to the length
of the text, and Run returns GameOver right at that keystroke, leaving every
later event unread. -/
theorem gameView_exact_typing_completes (env : Env) (style : Style) (screen : List Op)
    (text : Str) (h : text ≠ []) :
    (∀ n, n < text.length →
      ∃ s, GameView.Run env style screen text (typed (text.take n)) = Outcome.polling s ∧
        s.index = (n : Int)) ∧
    (∃ s r s1, GameView.Run env style screen text (typed (text.take (text.length - 1))) =
        Outcome.polling s ∧ text[text.length - 1]? = some r ∧
        GameView.keySwitch env style text s Key.KeyRune r = Step.next s1 ∧
        s1.index = (text.length : Int)) ∧
    (∀ extra, ∃ scr, GameView.Run env style screen text (typed text ++ extra) =
      Outcome.returned (some Mode.GameOver) scr extra) := by
  have hpos : 0 < text.length := List.length_pos.mpr h
  have hpre : ∀ n, n < text.length →
      ∃ s, GameView.Run env style screen text (typed (text.take n)) = Outcome.polling s ∧
        s.index = (n : Int) := by
    intro n hn
    obtain ⟨s, hs, hi⟩ := loop_typed_polling env style text text
      (GameView.enter env style screen text) 0 n rfl rfl hn
    exact ⟨s, hs, by simpa using hi⟩
  refine ⟨hpre, ?_, ?_⟩
  · obtain ⟨s, hs, hi⟩ := hpre (text.length - 1) (by omega)
    have hlt : text.length - 1 < text.length := by omega
    have hget : text[text.length - 1]? = some (text[text.length - 1]) :=
      List.getElem?_eq_getElem hlt
    have hat : runeAt text s.index = some (text[text.length - 1]) := by
      simp [runeAt, hi]
    refine ⟨s, text[text.length - 1], GameView.spaceWrap env style
      (GameView.typeRune env style s (text[text.length - 1]) (text[text.length - 1]))
      (text[text.length - 1]), hs, hget, ?_, ?_⟩
    · simp only [GameView.keySwitch, hat]
    · rw [spaceWrap_index, typeRune_index, hi]; omega
  · intro extra
    exact loop_typed_done env style text text (GameView.enter env style screen text) 0 h rfl rfl
      extra

/-- C1 at the practice text "cat sat." on the sample screen: eight keystrokes,
GameOver at the eighth. -/
theorem gameView_exact_typing_completes_witness :
    str "cat sat." ≠ [] ∧
    ((∀ n, n < (str "cat sat.").length →
      ∃ s, GameView.Run sampleEnv Style.zero [] (str "cat sat.")
          (typed ((str "cat sat.").take n)) = Outcome.polling s ∧ s.index = (n : Int)) ∧
    (∃ s r s1, GameView.Run sampleEnv Style.zero [] (str "cat sat.")
          (typed ((str "cat sat.").take ((str "cat sat.").length - 1))) = Outcome.polling s ∧
        (str "cat sat.")[(str "cat sat.").length - 1]? = some r ∧
        GameView.keySwitch sampleEnv Style.zero (str "cat sat.") s Key.KeyRune r = Step.next s1 ∧
        s1.index = ((str "cat sat.").length : Int)) ∧
    (∀ extra, ∃ scr, GameView.Run sampleEnv Style.zero [] (str "cat sat.")
        (typed (str "cat sat.") ++ extra) = Outcome.returned (some Mode.GameOver) scr extra)) :=
  ⟨by decide, gameView_exact_typing_completes sampleEnv Style.zero [] (str "cat sat.") (by decide)⟩
theorem runeAt_some_bounds (rtext : List Rune) (i : Int) (r : Rune)
    (h : runeAt rtext i = some r) : 0 ≤ i ∧ i < (rtext.length : Int) := by
  unfold runeAt at h
  split_ifs at h with h0
  refine ⟨h0, ?_⟩
  have hlt : i.toNat < rtext.length := by
    by_contra hc
    rw [List.getElem?_eq_none (by omega)] at h
    exact absurd h (by simp)
  omega

theorem afterKey_ret (env : Env) (style : Style) (rtext : List Rune) (s : Game)
    (mode : Option Mode) (scr : List Op)
    (h : GameView.afterKey env style rtext s = Step.ret mode scr) :
    mode = some Mode.GameOver ∧ s.index = (rtext.length : Int) := by
  by_cases hi : s.index = (rtext.length : Int)
  · rw [afterKey_done env style rtext s hi] at h
    injection h with h1 h2
    exact ⟨h1.symm, hi⟩
  · obtain ⟨s1, hs1, -⟩ := afterKey_next env style rtext s hi
    rw [hs1] at h
    exact absurd h (by simp)

theorem afterKey_ne_panic (env : Env) (style : Style) (rtext : List Rune) (s : Game)
    (scr : List Op) : GameView.afterKey env style rtext s ≠ Step.panic scr := by
  by_cases hi : s.index = (rtext.length : Int)
  · rw [afterKey_done env style rtext s hi]; simp
  · obtain ⟨s1, hs1, -⟩ := afterKey_next env style rtext s hi
    rw [hs1]; simp

theorem keySwitch_next_index_le (env : Env) (style : Style) (rtext : List Rune) (s s1 : Game)
    (key : Key) (ch : Rune) (hle : s.index ≤ (rtext.length : Int))
    (h : GameView.keySwitch env style rtext s key ch = Step.next s1) :
    s1.index ≤ (rtext.length : Int) := by
  have hdef : ∀ t, (match runeAt rtext s.index with
      | none => Step.panic s.screen
      | some expected => Step.next
          (GameView.spaceWrap env style (GameView.typeRune env style s expected ch) ch)) =
        Step.next t → t.index ≤ (rtext.length : Int) := by
    intro t ht
    cases hr : runeAt rtext s.index with
    | none => rw [hr] at ht; exact absurd ht (by simp)
    | some e =>
      rw [hr] at ht
      have hb := runeAt_some_bounds rtext s.index e hr
      injection ht with ht
      rw [← ht, spaceWrap_index, typeRune_index]
      omega
  cases key with
  | KeyCtrlC => simp [GameView.keySwitch] at h
  | KeyCtrlD => simp [GameView.keySwitch] at h
  | KeyBackspace2 =>
    simp only [GameView.keySwitch] at h
    injection h with h
    rw [← h]
    show s.index - 1 ≤ _
    omega
  | KeyEnter =>
    simp only [GameView.keySwitch] at h
    injection h with h
    rw [← h]
    exact hle
  | KeyCtrlN => exact hdef s1 (by simpa only [GameView.keySwitch] using h)
  | KeyRune => exact hdef s1 (by simpa only [GameView.keySwitch] using h)
  | KeyOther code => exact hdef s1 (by simpa only [GameView.keySwitch] using h)

theorem handle_next_index_le (env : Env) (style : Style) (rtext : List Rune) (s s1 : Game)
    (ev : Event) (hle : s.index ≤ (rtext.length : Int))
    (h : GameView.handle env style rtext s ev = Step.next s1) :
    s1.index ≤ (rtext.length : Int) := by
  cases ev with
  | EventKey key ch =>
    simp only [GameView.handle] at h
    cases hk : GameView.keySwitch env style rtext s key ch with
    | next t =>
      rw [hk] at h
      have h' : GameView.afterKey env style rtext t = Step.next s1 := h
      have ht := keySwitch_next_index_le env style rtext s t key ch hle hk
      by_cases hi : t.index = (rtext.length : Int)
      · rw [afterKey_done env style rtext t hi] at h'
        exact absurd h' (by simp)
      · obtain ⟨t1, ht1, hidx, -⟩ := afterKey_next env style rtext t hi
        rw [ht1] at h'
        injection h' with h'
        rw [← h', hidx]
        exact ht
    | ret mode scr => rw [hk] at h; exact absurd h (by simp)
    | panic scr => rw [hk] at h; exact absurd h (by simp)
  | EventResize =>
    simp only [GameView.handle] at h
    injection h with h
    rw [← h]; exact hle
  | EventOther =>
    simp only [GameView.handle] at h
    injection h with h
    rw [← h]; exact hle

theorem loop_polling_index_le (env : Env) (style : Style) (rtext : List Rune) :
    ∀ (events : List Event) (s0 s : Game), s0.index ≤ (rtext.length : Int) →
      GameView.loop env style rtext s0 events = Outcome.polling s →
      s.index ≤ (rtext.length : Int) := by
  intro events
  induction events with
  | nil =>
    intro s0 s hle h
    simp only [GameView.loop] at h
    injection h with h
    rw [← h]; exact hle
  | cons ev rest ih =>
    intro s0 s hle h
    simp only [GameView.loop] at h
    cases hh : GameView.handle env style rtext s0 ev with
    | next t =>
      rw [hh] at h
      exact ih { t with polled := t.polled + 1 } s
        (handle_next_index_le env style rtext s0 t ev hle hh) h
    | ret mode scr => rw [hh] at h; exact absurd h (by simp)
    | panic scr => rw [hh] at h; exact absurd h (by simp)

theorem handle_ret_gameOver_iff (env : Env) (style : Style) (rtext : List Rune) (s : Game)
    (ev : Event) :
    (∃ scr, GameView.handle env style rtext s ev = Step.ret (some Mode.GameOver) scr) ↔
      ∃ key ch s1, ev = Event.EventKey key ch ∧
        GameView.keySwitch env style rtext s key ch = Step.next s1 ∧
        s1.index = (rtext.length : Int) := by
  constructor
  · rintro ⟨scr, h⟩
    cases ev with
    | EventKey key ch =>
      simp only [GameView.handle] at h
      cases hk : GameView.keySwitch env style rtext s key ch with
      | next t =>
        rw [hk] at h
        have h' : GameView.afterKey env style rtext t = Step.ret (some Mode.GameOver) scr := h
        exact ⟨key, ch, t, rfl, hk, (afterKey_ret env style rtext t _ _ h').2⟩
      | ret mode scr1 =>
        rw [hk] at h
        have h' : Step.ret mode scr1 = (Step.ret (some Mode.GameOver) scr : Step Game) := h
        injection h' with hm hs
        subst hm
        cases key <;> simp [GameView.keySwitch] at hk
        all_goals (cases hr : runeAt rtext s.index <;> rw [hr] at hk <;> simp at hk)
      | panic scr1 => rw [hk] at h; exact absurd h (by simp)
    | EventResize => simp [GameView.handle] at h
    | EventOther => simp [GameView.handle] at h
  · rintro ⟨key, ch, s1, rfl, hk, hi⟩
    refine ⟨s1.screen ++ [Op.ShowCursor s1.pos.x s1.pos.y, Op.Sync] ++ [Op.HideCursor], ?_⟩
    simp only [GameView.handle, hk]
    exact afterKey_done env style rtext s1 hi

theorem loop_gameOver_iff (env : Env) (style : Style) (rtext : List Rune) :
    ∀ (events : List Event) (s0 : Game),
      (∃ scr rest, GameView.loop env style rtext s0 events =
          Outcome.returned (some Mode.GameOver) scr rest) ↔
        ∃ pre key ch rest s s1, events = pre ++ Event.EventKey key ch :: rest ∧
          GameView.loop env style rtext s0 pre = Outcome.polling s ∧
          GameView.keySwitch env style rtext s key ch = Step.next s1 ∧
          s1.index = (rtext.length : Int) := by
  intro events
  induction events with
  | nil =>
    intro s0
    constructor
    · rintro ⟨scr, rest, h⟩
      simp [GameView.loop] at h
    · rintro ⟨pre, key, ch, rest, s, s1, h, -⟩
      simp at h
  | cons ev evs ih =>
    intro s0
    have hstep := handle_ret_gameOver_iff env style rtext s0 ev
    constructor
    · rintro ⟨scr, rest, h⟩
      simp only [GameView.loop] at h
      cases hh : GameView.handle env style rtext s0 ev with
      | next t =>
        rw [hh] at h
        obtain ⟨pre, key, ch, rest1, s, s1, he, hp, hk, hi⟩ :=
          (ih { t with polled := t.polled + 1 }).mp ⟨scr, rest, h⟩
        refine ⟨ev :: pre, key, ch, rest1, s, s1, by rw [he]; rfl, ?_, hk, hi⟩
        simp only [GameView.loop, hh]
        exact hp
      | ret mode scr1 =>
        rw [hh] at h
        have h' : Outcome.returned mode scr1 evs =
            (Outcome.returned (some Mode.GameOver) scr rest : Outcome Game) := h
        injection h' with hm hs hr
        subst hm
        obtain ⟨key, ch, s1, he, hk, hi⟩ := hstep.mp ⟨scr1, hh⟩
        exact ⟨[], key, ch, evs, s0, s1, by rw [he]; rfl, rfl, hk, hi⟩
      | panic scr1 => rw [hh] at h; exact absurd h (by simp)
    · rintro ⟨pre, key, ch, rest1, s, s1, he, hp, hk, hi⟩
      cases pre with
      | nil =>
        simp only [List.nil_append, List.cons.injEq] at he
        obtain ⟨he1, he2⟩ := he
        simp only [GameView.loop] at hp
        injection hp with hp
        subst hp
        obtain ⟨scr, hscr⟩ := hstep.mpr ⟨key, ch, s1, he1, hk, hi⟩
        exact ⟨scr, evs, by simp only [GameView.loop, hscr]⟩
      | cons e pre1 =>
        simp only [List.cons_append, List.cons.injEq] at he
        obtain ⟨he1, he2⟩ := he
        subst he1
        simp only [GameView.loop] at hp
        cases hh : GameView.handle env style rtext s0 ev with
        | next t =>
          rw [hh] at hp
          obtain ⟨scr, rest, hr⟩ := (ih { t with polled := t.polled + 1 }).mpr
            ⟨pre1, key, ch, rest1, s, s1, he2, hp, hk, hi⟩
          exact ⟨scr, rest, by simp only [GameView.loop, hh]; exact hr⟩
        | ret mode scr1 => rw [hh] at hp; exact absurd hp (by simp)
        | panic scr1 => rw [hh] at hp; exact absurd hp (by simp)

/-- C2: over every practice text and every sequence of events, the input index
of GameView.Run is at most the length of the text whenever Run polls for the
next event and also right after the key switch has handled a key, and Run
returns GameOver exactly when some key event has gone through the key switch
and left the index equal to the length of the text. -/
theorem gameView_index_never_exceeds_length (env : Env) (style : Style) (screen : List Op)
    (text : Str) (events : List Event) :
    (∀ s, GameView.Run env style screen text events = Outcome.polling s →
      s.index ≤ (text.length : Int)) ∧
    (∀ s key ch s1, GameView.Run env style screen text events = Outcome.polling s →
      GameView.keySwitch env style text s key ch = Step.next s1 →
      s1.index ≤ (text.length : Int)) ∧
    ((∃ scr rest, GameView.Run env style screen text events =
        Outcome.returned (some Mode.GameOver) scr rest) ↔
      ∃ pre key ch rest s s1, events = pre ++ Event.EventKey key ch :: rest ∧
        GameView.Run env style screen text pre = Outcome.polling s ∧
        GameView.keySwitch env style text s key ch = Step.next s1 ∧
        s1.index = (text.length : Int)) := by
  have h0 : (GameView.enter env style screen text).index ≤ (text.length : Int) := by
    show (0 : Int) ≤ _
    omega
  refine ⟨?_, ?_, ?_⟩
  · intro s hs
    exact loop_polling_index_le env style text events _ s h0 hs
  · intro s key ch s1 hs hk
    exact keySwitch_next_index_le env style text s s1 key ch
      (loop_polling_index_le env style text events _ s h0 hs) hk
  · exact loop_gameOver_iff env style text events (GameView.enter env style screen text)

theorem len_append (a b : Str) : len (a ++ b) = len a + len b := by
  simp [len]

theorem len_nonneg (a : Str) : 0 ≤ len a := by
  unfold len
  exact Int.ofNat_nonneg _

theorem longestWord_foldl_ge (ws : List Str) :
    ∀ m : Int, m ≤ ws.foldl (fun max word => if len word > max then len word else max) m ∧
      ∀ wd ∈ ws, len wd ≤ ws.foldl (fun max word => if len word > max then len word else max) m := by
  induction ws with
  | nil => intro m; exact ⟨le_refl m, by simp⟩
  | cons a ws ih =>
    intro m
    simp only [List.foldl_cons]
    obtain ⟨h1, h2⟩ := ih (if len a > m then len a else m)
    refine ⟨?_, ?_⟩
    · refine le_trans ?_ h1
      split_ifs <;> omega
    · intro wd hwd
      rcases List.mem_cons.mp hwd with rfl | hmem
      · refine le_trans ?_ h1
        split_ifs <;> omega
      · exact h2 wd hmem

theorem len_le_longestWord (ws : List Str) (wd : Str) (h : wd ∈ ws) :
    len wd ≤ longestWord ws :=
  (longestWord_foldl_ge ws 0).2 wd h

theorem fillLoop_within (w x : Int) :
    ∀ (words : List Str) (lx ly : Int), (∀ word ∈ words, x + len word ≤ w) →
      ∀ p ∈ fillLoop w x lx ly words, p.lx + len p.word ≤ w := by
  intro words
  induction words with
  | nil => intro lx ly _ p hp; simp [fillLoop] at hp
  | cons word more ih =>
    intro lx ly hw p hp
    have hword := hw word (List.mem_cons_self _ _)
    have hmore : ∀ v ∈ more, x + len v ≤ w := fun v hv => hw v (List.mem_cons_of_mem _ hv)
    simp only [fillLoop] at hp
    split_ifs at hp with hwrap
    · rcases List.mem_cons.mp hp with rfl | hp1
      · exact hword
      · exact ih _ _ hmore p hp1
    · rcases List.mem_cons.mp hp with rfl | hp1
      · show lx + len word ≤ w
        omega
      · exact ih _ _ hmore p hp1

theorem fillLoop_words (w x : Int) :
    ∀ (words : List Str) (lx ly : Int), (fillLoop w x lx ly words).map Placed.word = words := by
  intro words
  induction words with
  | nil => intro lx ly; rfl
  | cons word more ih =>
    intro lx ly
    simp only [fillLoop]
    split_ifs <;> simp [ih]

theorem readStrings_word (wd : Str) (h : ∀ c ∈ wd, c ≠ 32) :
    ∀ (rest cur : Str), readStrings (wd ++ rest) cur = readStrings rest (wd.reverse ++ cur) := by
  induction wd with
  | nil => intro rest cur; rfl
  | cons c wd ih =>
    intro rest cur
    have hc : c ≠ 32 := h c (List.mem_cons_self _ _)
    have hwd : ∀ d ∈ wd, d ≠ 32 := fun d hd => h d (List.mem_cons_of_mem _ hd)
    have hstep : readStrings (c :: (wd ++ rest)) cur = readStrings (wd ++ rest) (c :: cur) := by
      simp only [readStrings, if_neg hc]
    rw [List.cons_append, hstep, ih hwd, List.reverse_cons, List.append_assoc]
    rfl

theorem readStrings_joinWords_len (bound : Int) (hb : 0 ≤ bound) :
    ∀ ws : List Str, (∀ wd ∈ ws, ∀ c ∈ wd, c ≠ 32) → (∀ wd ∈ ws, len wd ≤ bound) →
      ∀ tok ∈ readStrings (joinWords ws) [], len tok ≤ bound + 1 := by
  intro ws
  induction ws with
  | nil =>
    intro _ _ tok htok
    simp only [joinWords, readStrings, List.reverse_nil, List.mem_singleton] at htok
    subst htok
    show (0 : Int) ≤ bound + 1
    omega
  | cons wd tl ih =>
    intro hsp hlen tok htok
    have hwd := hsp wd (List.mem_cons_self _ _)
    have hl := hlen wd (List.mem_cons_self _ _)
    cases tl with
    | nil =>
      have h1 := readStrings_word wd hwd [] []
      simp only [List.append_nil] at h1
      simp only [joinWords, h1, readStrings, List.reverse_reverse, List.mem_singleton] at htok
      subst htok
      omega
    | cons nxt more =>
      have h1 := readStrings_word wd hwd (32 :: joinWords (nxt :: more)) []
      simp only [List.append_nil] at h1
      simp only [joinWords, h1, readStrings, if_true, List.reverse_cons, List.reverse_reverse,
        List.mem_cons] at htok
      rcases htok with rfl | hmem
      · rw [len_append]
        have : len [32] = 1 := by decide
        omega
      · exact ih (fun v hv => hsp v (List.mem_cons_of_mem _ hv))
          (fun v hv => hlen v (List.mem_cons_of_mem _ hv)) tok hmem

/-- C4 (as the code has it): for a text of space-separated words and a grid
width of at least the longest word and its trailing space past the start
column, fillText places each word token it reads, in order, at a column lx
with lx plus the width of the token at most the grid width. -/
theorem fillText_tokens_within_width (w x y : Int) (ws : List Str)
    (hsp : ∀ wd ∈ ws, ∀ c ∈ wd, c ≠ 32) (hw : x + longestWord ws + 1 ≤ w) :
    (∀ p ∈ fillTextCalls w x y (joinWords ws), p.lx + len p.word ≤ w) ∧
    (fillTextCalls w x y (joinWords ws)).map Placed.word = readStrings (joinWords ws) [] := by
  have hL : 0 ≤ longestWord ws := (longestWord_foldl_ge ws 0).1
  refine ⟨?_, fillLoop_words w x _ x y⟩
  intro p hp
  refine fillLoop_within w x _ x y ?_ p hp
  intro word hword
  have := readStrings_joinWords_len (longestWord ws) hL ws hsp
    (fun wd hwd => len_le_longestWord ws wd hwd) word hword
  omega

/-- C4 on the words "cat" and "sat" for a grid of width 4. -/
theorem fillText_tokens_within_width_witness :
    (∀ wd ∈ [str "cat", str "sat"], ∀ c ∈ wd, c ≠ 32) ∧
    (0 : Int) + longestWord [str "cat", str "sat"] + 1 ≤ 4 ∧
    ((∀ p ∈ fillTextCalls 4 0 0 (joinWords [str "cat", str "sat"]), p.lx + len p.word ≤ 4) ∧
    (fillTextCalls 4 0 0 (joinWords [str "cat", str "sat"])).map Placed.word =
      readStrings (joinWords [str "cat", str "sat"]) []) :=
  ⟨by decide, by decide,
    fillText_tokens_within_width 4 0 0 [str "cat", str "sat"] (by decide) (by decide)⟩

/-- C4 as stated fails: with the words "cat" and "sat" the longest word has
length 3, and on a grid of width 3 fillText places the token "cat " at column 0,
where column plus width is 4. -/
theorem fillText_overflows_at_longest_word :
    longestWord [str "cat", str "sat"] ≤ 3 ∧
    ¬ (∀ p ∈ fillTextCalls 3 0 0 (joinWords [str "cat", str "sat"]), p.lx + len p.word ≤ 3) := by
  decide

theorem putsLoop_zwjPairs (rw : Rune → Nat) (style : Style) (x y : Int) :
    ∀ (joined : List Rune), (∀ j ∈ joined, j ≠ 0x200d) →
      ∀ (rest : Str) (i : Int) (deferred : List Rune) (dwidth : Int), deferred ≠ [] →
      putsLoop rw style x y (zwjPairs joined ++ rest) i deferred dwidth false =
        putsLoop rw style x y rest i (deferred ++ zwjPairs joined) dwidth false := by
  intro joined
  induction joined with
  | nil => intro _ rest i deferred dwidth _; simp [zwjPairs]
  | cons j more ih =>
    intro hj rest i deferred dwidth hd
    have hj0 : j ≠ 0x200d := hj j (List.mem_cons_self _ _)
    have hmore : ∀ k ∈ more, k ≠ 0x200d := fun k hk => hj k (List.mem_cons_of_mem _ hk)
    have hstep : putsLoop rw style x y (0x200d :: j :: (zwjPairs more ++ rest)) i deferred
        dwidth false =
        putsLoop rw style x y (zwjPairs more ++ rest) i (deferred ++ [0x200d] ++ [j]) dwidth
          false := by
      rw [putsLoop]
      simp only [if_true, if_neg hd]
      rw [putsLoop]
      simp only [if_neg hj0, if_true]
    have hne : deferred ++ [0x200d] ++ [j] ≠ [] := by simp
    show putsLoop rw style x y (0x200d :: j :: (zwjPairs more ++ rest)) i deferred dwidth false = _
    rw [hstep, ih hmore rest i _ dwidth hne]
    simp [zwjPairs]

theorem puts_one_rune (rw : Rune → Nat) (style : Style) (x y : Int) (r : Rune) :
    ∃ mainc combc, puts rw style x y [r] = [Op.SetContent x y mainc combc style] ∧
      (r ≠ 0x200d → (rw r = 1 ∨ rw r = 2) → mainc = r ∧ combc = []) := by
  unfold puts
  rw [putsLoop]
  by_cases hz : r = 0x200d
  · refine ⟨32, [r], ?_, fun h => absurd hz h⟩
    simp [hz, putsLoop, flushDeferred]
  · simp only [if_neg hz, Bool.false_eq_true, if_false]
    rcases hr : rw r with _ | _ | _ | n
    · refine ⟨32, [r], ?_, fun _ h => ?_⟩
      · simp [putsLoop, flushDeferred]
      · omega
    · exact ⟨r, [], by simp [putsLoop, flushDeferred], fun _ _ => ⟨rfl, rfl⟩⟩
    · exact ⟨r, [], by simp [putsLoop, flushDeferred], fun _ _ => ⟨rfl, rfl⟩⟩
    · refine ⟨r, [], by simp [putsLoop, flushDeferred], fun _ _ => ⟨rfl, rfl⟩⟩

/-- C7 (as the code has it): for a zero-width-joiner sequence (a base rune of
display width 1 or 2, then U+200D and a joined rune other than U+200D, any
number of times) followed by one rune of width 1, puts makes exactly two
SetContent calls: one at column x with the base as main rune and all the other
code points of the sequence as combining runes, and one for the following rune
at column x plus the display width of the base, which is x+1 for a base of
width 1 and x+2 for a wide base. -/
theorem puts_zwj_sequence_single_cell (rw : Rune → Nat) (style : Style) (x y : Int)
    (base : Rune) (joined : List Rune) (next : Rune)
    (hb : base ≠ 0x200d) (hw : rw base = 1 ∨ rw base = 2)
    (hj : ∀ j ∈ joined, j ≠ 0x200d) (hn : next ≠ 0x200d) (hnw : rw next = 1) :
    puts rw style x y (base :: zwjPairs joined ++ [next]) =
      [Op.SetContent x y base (zwjPairs joined) style,
       Op.SetContent (x + (rw base : Int)) y next [] style] := by
  unfold puts
  have hbase : putsLoop rw style x y (base :: (zwjPairs joined ++ [next])) 0 [] 0 false =
      putsLoop rw style x y (zwjPairs joined ++ [next]) 0 [base] (rw base : Int) false := by
    rw [putsLoop]
    rcases hw with h1 | h2
    · simp [hb, h1, flushDeferred]
    · simp [hb, h2, flushDeferred]
  have hlast : putsLoop rw style x y [next] 0 ([base] ++ zwjPairs joined) (rw base : Int) false =
      [Op.SetContent x y base (zwjPairs joined) style,
       Op.SetContent (x + (rw base : Int)) y next [] style] := by
    rw [putsLoop]
    simp [hn, hnw, flushDeferred, putsLoop]
  show putsLoop rw style x y (base :: (zwjPairs joined ++ [next])) 0 [] 0 false = _
  rw [hbase, putsLoop_zwjPairs rw style x y joined hj [next] 0 [base] _ (by simp), hlast]

/-- C7 at the family sequence U+1F468 U+200D U+1F469 followed by the letter a. -/
theorem puts_zwj_sequence_single_cell_witness :
    (0x1F468 : Rune) ≠ 0x200d ∧ (sampleEnv.rw 0x1F468 = 1 ∨ sampleEnv.rw 0x1F468 = 2) ∧
    (∀ j ∈ [(0x1F469 : Rune)], j ≠ 0x200d) ∧ (97 : Rune) ≠ 0x200d ∧ sampleEnv.rw 97 = 1 ∧
    puts sampleEnv.rw Style.zero 5 7 (0x1F468 :: zwjPairs [0x1F469] ++ [97]) =
      [Op.SetContent 5 7 0x1F468 (zwjPairs [0x1F469]) Style.zero,
       Op.SetContent (5 + (sampleEnv.rw 0x1F468 : Int)) 7 97 [] Style.zero] :=
  ⟨by decide, by decide, by decide, by decide, by decide,
    puts_zwj_sequence_single_cell sampleEnv.rw Style.zero 5 7 0x1F468 [0x1F469] 97
      (by decide) (by decide) (by decide) (by decide) (by decide)⟩

/-- C7 as stated fails for a wide base: the man emoji U+1F468 has display width
2, so after the sequence U+1F468 U+200D U+1F469 written at column 5 the
following letter is written at column 7, and no call writes it at column 6. -/
theorem puts_zwj_wide_base_next_column :
    sampleEnv.rw 0x1F468 = 2 ∧ sampleEnv.rw 97 = 1 ∧
    puts sampleEnv.rw Style.zero 5 7 [0x1F468, 0x200d, 0x1F469, 97] =
      [Op.SetContent 5 7 0x1F468 [0x200d, 0x1F469] Style.zero,
       Op.SetContent 7 7 97 [] Style.zero] ∧
    Op.SetContent (5 + 1) 7 97 [] Style.zero ∉
      puts sampleEnv.rw Style.zero 5 7 [0x1F468, 0x200d, 0x1F469, 97] := by
  decide

theorem runeString_one (r : Rune) :
    runeString r = [r] ∨ runeString r = [0xFFFD] := by
  unfold runeString
  split_ifs
  · exact Or.inl rfl
  · exact Or.inr rfl

theorem keySwitch_default (env : Env) (style : Style) (rtext : List Rune) (s : Game)
    (key : Key) (ch expected : Rune)
    (hkey : key ≠ Key.KeyCtrlC ∧ key ≠ Key.KeyCtrlD ∧ key ≠ Key.KeyBackspace2 ∧
      key ≠ Key.KeyEnter)
    (hat : runeAt rtext s.index = some expected) :
    GameView.keySwitch env style rtext s key ch =
      Step.next (GameView.spaceWrap env style (GameView.typeRune env style s expected ch) ch) := by
  obtain ⟨h1, h2, h3, h4⟩ := hkey
  cases key with
  | KeyCtrlC => exact absurd rfl h1
  | KeyCtrlD => exact absurd rfl h2
  | KeyBackspace2 => exact absurd rfl h3
  | KeyEnter => exact absurd rfl h4
  | KeyCtrlN => simp only [GameView.keySwitch, hat]
  | KeyRune => simp only [GameView.keySwitch, hat]
  | KeyOther code => simp only [GameView.keySwitch, hat]

/-- C8: a key event that is none of Ctrl-C, Ctrl-D, Backspace and Enter, handled
while `rtext[index]` exists, draws the rune with one SetContent call at the
cursor cell, in the style with the red foreground when the rune differs from
`rtext[index]` and in the unmodified style when it is equal (so, the style
of the game not being red itself, red exactly when it differs); a rune of
width 1 or 2 is the main rune of the cell; the index and the cursor column
each grow by one, the row and the word count unchanged, before the whitespace
step runs on the result. -/
theorem gameView_typed_rune_drawn_and_advanced (env : Env) (style : Style)
    (rtext : List Rune) (s : Game) (key : Key) (ch expected : Rune)
    (hkey : key ≠ Key.KeyCtrlC ∧ key ≠ Key.KeyCtrlD ∧ key ≠ Key.KeyBackspace2 ∧
      key ≠ Key.KeyEnter)
    (hat : runeAt rtext s.index = some expected) :
    GameView.keySwitch env style rtext s key ch =
      Step.next (GameView.spaceWrap env style (GameView.typeRune env style s expected ch) ch) ∧
    (∃ mainc combc drawn,
      (GameView.typeRune env style s expected ch).screen =
        s.screen ++ [Op.SetContent s.pos.x s.pos.y mainc combc drawn] ∧
      (ch ≠ expected → drawn = style.Foreground Color.ColorRed) ∧
      (ch = expected → drawn = style) ∧
      (style.fg ≠ Color.ColorRed → (drawn.fg = Color.ColorRed ↔ ch ≠ expected)) ∧
      (runeString ch = [ch] → ch ≠ 0x200d → (env.rw ch = 1 ∨ env.rw ch = 2) →
        mainc = ch ∧ combc = [])) ∧
    (GameView.typeRune env style s expected ch).index = s.index + 1 ∧
    (GameView.typeRune env style s expected ch).pos = ⟨s.pos.x + 1, s.pos.y⟩ ∧
    (GameView.typeRune env style s expected ch).wordCount = s.wordCount := by
  refine ⟨keySwitch_default env style rtext s key ch expected hkey hat, ?_, rfl, rfl, rfl⟩
  have hscreen : (GameView.typeRune env style s expected ch).screen =
      s.screen ++ puts env.rw (if (expected == ch) = true then style
        else style.Foreground Color.ColorRed) s.pos.x s.pos.y (runeString ch) := rfl
  have hstyle : ∀ (drawn : Style), drawn = (if (expected == ch) = true then style
        else style.Foreground Color.ColorRed) →
      (ch ≠ expected → drawn = style.Foreground Color.ColorRed) ∧
      (ch = expected → drawn = style) ∧
      (style.fg ≠ Color.ColorRed → (drawn.fg = Color.ColorRed ↔ ch ≠ expected)) := by
    intro drawn hd
    by_cases he : ch = expected
    · subst he
      simp only [beq_self_eq_true, if_true] at hd
      subst hd
      exact ⟨fun h => absurd rfl h, fun _ => rfl, fun hfg => ⟨fun h => absurd h hfg,
        fun h => absurd rfl h⟩⟩
    · have hne : (expected == ch) = false := by
        simp only [beq_eq_false_iff_ne, ne_eq]
        exact fun h => he h.symm
      simp only [hne, Bool.false_eq_true, if_false] at hd
      subst hd
      exact ⟨fun _ => rfl, fun h => absurd h he, fun _ => ⟨fun _ => he, fun _ => rfl⟩⟩
  rcases runeString_one ch with hrs | hrs
  · obtain ⟨mainc, combc, hp, hmain⟩ := puts_one_rune env.rw
      (if (expected == ch) = true then style else style.Foreground Color.ColorRed)
      s.pos.x s.pos.y ch
    obtain ⟨h1, h2, h3⟩ := hstyle _ rfl
    refine ⟨mainc, combc, _, ?_, h1, h2, h3, fun _ hz hw => hmain hz hw⟩
    rw [hscreen, hrs, hp]
  · obtain ⟨mainc, combc, hp, -⟩ := puts_one_rune env.rw
      (if (expected == ch) = true then style else style.Foreground Color.ColorRed)
      s.pos.x s.pos.y 0xFFFD
    obtain ⟨h1, h2, h3⟩ := hstyle _ rfl
    refine ⟨mainc, combc, _, ?_, h1, h2, h3, fun hv hz hw => ?_⟩
    · rw [hscreen, hrs, hp]
    · rw [hrs] at hv
      have hch : ch = 0xFFFD := (List.cons.inj hv).1.symm
      subst hch
      obtain ⟨m2, c2, hp2, hmain2⟩ := puts_one_rune env.rw
        (if (expected == 0xFFFD) = true then style else style.Foreground Color.ColorRed)
        s.pos.x s.pos.y 0xFFFD
      rw [hp] at hp2
      injection hp2 with hp2
      injection hp2 with _ _ hm hc
      rw [hm, hc]
      exact hmain2 hz hw

/-- C8 at the first keystroke of the text "ab" when the key typed is x. -/
theorem gameView_typed_rune_drawn_and_advanced_witness :
    (Key.KeyRune ≠ Key.KeyCtrlC ∧ Key.KeyRune ≠ Key.KeyCtrlD ∧
      Key.KeyRune ≠ Key.KeyBackspace2 ∧ Key.KeyRune ≠ Key.KeyEnter) ∧
    runeAt (str "ab") (GameView.enter sampleEnv Style.zero [] (str "ab")).index = some 97 ∧
    GameView.keySwitch sampleEnv Style.zero (str "ab")
        (GameView.enter sampleEnv Style.zero [] (str "ab")) Key.KeyRune 120 =
      Step.next (GameView.spaceWrap sampleEnv Style.zero
        (GameView.typeRune sampleEnv Style.zero
          (GameView.enter sampleEnv Style.zero [] (str "ab")) 97 120) 120) ∧
    (GameView.typeRune sampleEnv Style.zero
      (GameView.enter sampleEnv Style.zero [] (str "ab")) 97 120).index =
      (GameView.enter sampleEnv Style.zero [] (str "ab")).index + 1 :=
  ⟨by decide, by decide,
    (gameView_typed_rune_drawn_and_advanced sampleEnv Style.zero (str "ab")
      (GameView.enter sampleEnv Style.zero [] (str "ab")) Key.KeyRune 120 97
      (by decide) (by decide)).1,
    (gameView_typed_rune_drawn_and_advanced sampleEnv Style.zero (str "ab")
      (GameView.enter sampleEnv Style.zero [] (str "ab")) Key.KeyRune 120 97
      (by decide) (by decide)).2.2.1⟩

theorem helpView_handle_ret_iff (screen : List Op) (ev : Event) (mode : Option Mode) :
    (∃ scr, HelpView.handle screen ev = Step.ret mode scr) ↔
      ((∃ ch, ev = Event.EventKey Key.KeyCtrlC ch) ∧ mode = none) ∨
      ((∃ ch, ev = Event.EventKey Key.KeyCtrlN ch) ∧ mode = some Mode.GameView) := by
  cases ev with
  | EventKey key ch => cases key <;> simp [HelpView.handle, eq_comm]
  | EventResize => simp [HelpView.handle]
  | EventOther => simp [HelpView.handle]

theorem gameOver_handle_ret_iff (env : Env) (style : Style) (screen : List Op) (ev : Event)
    (mode : Option Mode) :
    (∃ scr, GameOver.handle env style screen ev = Step.ret mode scr) ↔
      ((∃ ch, ev = Event.EventKey Key.KeyCtrlC ch) ∧ mode = none) ∨
      ((∃ ch, ev = Event.EventKey Key.KeyEnter ch) ∧ mode = some Mode.HelpView) := by
  cases ev with
  | EventKey key ch => cases key <;> simp [GameOver.handle, eq_comm]
  | EventResize => simp [GameOver.handle]
  | EventOther => simp [GameOver.handle]

theorem gameView_handle_ret_iff (env : Env) (style : Style) (rtext : List Rune) (s : Game)
    (ev : Event) (mode : Option Mode) :
    (∃ scr, GameView.handle env style rtext s ev = Step.ret mode scr) ↔
      ((∃ ch, ev = Event.EventKey Key.KeyCtrlC ch) ∧ mode = none) ∨
      ((∃ ch, ev = Event.EventKey Key.KeyCtrlD ch) ∧ mode = some Mode.HelpView) ∨
      ((∃ key ch s1, ev = Event.EventKey key ch ∧
          GameView.keySwitch env style rtext s key ch = Step.next s1 ∧
          s1.index = (rtext.length : Int)) ∧ mode = some Mode.GameOver) := by
  constructor
  · rintro ⟨scr, h⟩
    cases ev with
    | EventKey key ch =>
      simp only [GameView.handle] at h
      cases hk : GameView.keySwitch env style rtext s key ch with
      | next t =>
        rw [hk] at h
        have h' : GameView.afterKey env style rtext t = Step.ret mode scr := h
        obtain ⟨hm, hi⟩ := afterKey_ret env style rtext t _ _ h'
        exact Or.inr (Or.inr ⟨⟨key, ch, t, rfl, hk, hi⟩, hm⟩)
      | ret m scr1 =>
        rw [hk] at h
        have h' : Step.ret m scr1 = (Step.ret mode scr : Step Game) := h
        injection h' with hm hs
        subst hm
        cases key with
        | KeyCtrlC =>
          simp only [GameView.keySwitch] at hk
          injection hk with hk1 hk2
          exact Or.inl ⟨⟨ch, rfl⟩, hk1.symm⟩
        | KeyCtrlD =>
          simp only [GameView.keySwitch] at hk
          injection hk with hk1 hk2
          exact Or.inr (Or.inl ⟨⟨ch, rfl⟩, hk1.symm⟩)
        | KeyBackspace2 => simp [GameView.keySwitch] at hk
        | KeyEnter => simp [GameView.keySwitch] at hk
        | KeyCtrlN =>
          simp only [GameView.keySwitch] at hk
          cases hr : runeAt rtext s.index <;> rw [hr] at hk <;> simp at hk
        | KeyRune =>
          simp only [GameView.keySwitch] at hk
          cases hr : runeAt rtext s.index <;> rw [hr] at hk <;> simp at hk
        | KeyOther code =>
          simp only [GameView.keySwitch] at hk
          cases hr : runeAt rtext s.index <;> rw [hr] at hk <;> simp at hk
      | panic scr1 => rw [hk] at h; exact absurd h (by simp)
    | EventResize => simp [GameView.handle] at h
    | EventOther => simp [GameView.handle] at h
  · rintro (⟨⟨ch, rfl⟩, rfl⟩ | ⟨⟨ch, rfl⟩, rfl⟩ | ⟨hex, rfl⟩)
    · exact ⟨s.screen, rfl⟩
    · exact ⟨s.screen ++ clearInput env style ++ [Op.HideCursor], rfl⟩
    · exact (handle_ret_gameOver_iff env style rtext s ev).mpr hex

theorem helpView_loop_nil (events : List Event) :
    ∀ (screen scr : List Op) (rest : List Event),
      HelpView.loop screen events = Outcome.returned none scr rest →
      ∃ pre ch, events = pre ++ Event.EventKey Key.KeyCtrlC ch :: rest := by
  induction events with
  | nil => intro screen scr rest h; simp [HelpView.loop] at h
  | cons ev evs ih =>
    intro screen scr rest h
    simp only [HelpView.loop] at h
    cases hh : HelpView.handle screen ev with
    | next t =>
      rw [hh] at h
      obtain ⟨pre, ch, he⟩ := ih t scr rest h
      exact ⟨ev :: pre, ch, by rw [he]; rfl⟩
    | ret m scr1 =>
      rw [hh] at h
      have h' : Outcome.returned m scr1 evs =
          (Outcome.returned none scr rest : Outcome (List Op)) := h
      injection h' with hm hs hr
      subst hm hr
      rcases (helpView_handle_ret_iff screen ev none).mp ⟨scr1, hh⟩ with ⟨⟨ch, he⟩, -⟩ | ⟨-, hm⟩
      · exact ⟨[], ch, by rw [he]; rfl⟩
      · exact absurd hm (by simp)
    | panic scr1 => rw [hh] at h; exact absurd h (by simp)

theorem gameOver_loop_nil (env : Env) (style : Style) (events : List Event) :
    ∀ (screen scr : List Op) (rest : List Event),
      GameOver.loop env style screen events = Outcome.returned none scr rest →
      ∃ pre ch, events = pre ++ Event.EventKey Key.KeyCtrlC ch :: rest := by
  induction events with
  | nil => intro screen scr rest h; simp [GameOver.loop] at h
  | cons ev evs ih =>
    intro screen scr rest h
    simp only [GameOver.loop] at h
    cases hh : GameOver.handle env style screen ev with
    | next t =>
      rw [hh] at h
      obtain ⟨pre, ch, he⟩ := ih t scr rest h
      exact ⟨ev :: pre, ch, by rw [he]; rfl⟩
    | ret m scr1 =>
      rw [hh] at h
      have h' : Outcome.returned m scr1 evs =
          (Outcome.returned none scr rest : Outcome (List Op)) := h
      injection h' with hm hs hr
      subst hm hr
      rcases (gameOver_handle_ret_iff env style screen ev none).mp ⟨scr1, hh⟩ with
        ⟨⟨ch, he⟩, -⟩ | ⟨-, hm⟩
      · exact ⟨[], ch, by rw [he]; rfl⟩
      · exact absurd hm (by simp)
    | panic scr1 => rw [hh] at h; exact absurd h (by simp)

theorem gameView_loop_nil (env : Env) (style : Style) (rtext : List Rune)
    (events : List Event) :
    ∀ (s : Game) (scr : List Op) (rest : List Event),
      GameView.loop env style rtext s events = Outcome.returned none scr rest →
      ∃ pre ch, events = pre ++ Event.EventKey Key.KeyCtrlC ch :: rest := by
  induction events with
  | nil => intro s scr rest h; simp [GameView.loop] at h
  | cons ev evs ih =>
    intro s scr rest h
    simp only [GameView.loop] at h
    cases hh : GameView.handle env style rtext s ev with
    | next t =>
      rw [hh] at h
      obtain ⟨pre, ch, he⟩ := ih _ scr rest h
      exact ⟨ev :: pre, ch, by rw [he]; rfl⟩
    | ret m scr1 =>
      rw [hh] at h
      have h' : Outcome.returned m scr1 evs =
          (Outcome.returned none scr rest : Outcome Game) := h
      injection h' with hm hs hr
      subst hm hr
      rcases (gameView_handle_ret_iff env style rtext s ev none).mp ⟨scr1, hh⟩ with
        ⟨⟨ch, he⟩, -⟩ | ⟨-, hm⟩ | ⟨-, hm⟩
      · exact ⟨[], ch, by rw [he]; rfl⟩
      · exact absurd hm (by simp)
      · exact absurd hm (by simp)
    | panic scr1 => rw [hh] at h; exact absurd h (by simp)

/-- C3 at index 0: one Backspace on the practice text "ab" leaves GameView.Run
polling with the input index at -1, not at max(0, 0-1) = 0, while the cursor
column is clamped at 0. -/
theorem gameView_backspace_at_start_index_negative :
    ∃ s, GameView.Run sampleEnv Style.zero [] (str "ab")
        [Event.EventKey Key.KeyBackspace2 0] = Outcome.polling s ∧
      s.index = -1 ∧ s.pos.x = 0 ∧ max (0 : Int) (0 - 1) = 0 :=
  ⟨_, rfl, by decide, by decide, by decide⟩

/-- C10 after a Backspace: on the practice text "ab", Backspace and then the
key a make GameView.Run read `rtext[-1]` and panic. -/
theorem gameView_backspace_then_rune_panics :
    ∃ scr, GameView.Run sampleEnv Style.zero [] (str "ab")
        [Event.EventKey Key.KeyBackspace2 0, Event.EventKey Key.KeyRune 97] =
      Outcome.panicked scr [] :=
  ⟨_, rfl⟩

/-- C6 at an arrow key: on the practice text "ab", the key Up (tcell code 257,
rune 0) as first event is handled by the default case: a cell is drawn at the
cursor in red, the index goes from 0 to 1 and the cursor column from 0 to 1. -/
theorem gameView_arrow_key_is_typed :
    ∃ s, GameView.Run sampleEnv Style.zero [] (str "ab")
        [Event.EventKey (Key.KeyOther 257) 0] = Outcome.polling s ∧
      (GameView.enter sampleEnv Style.zero [] (str "ab")).index = 0 ∧ s.index = 1 ∧
      (GameView.enter sampleEnv Style.zero [] (str "ab")).pos = ⟨0, 5⟩ ∧ s.pos = ⟨1, 5⟩ ∧
      s.screen = (GameView.enter sampleEnv Style.zero [] (str "ab")).screen ++
        Op.SetContent 0 5 32 [0] (Style.zero.Foreground Color.ColorRed) ::
        Op.ShowCursor 1 5 :: Op.Sync ::
        puts sampleEnv.rw Style.zero 0 7 (strRepeat 32 8) :=
  ⟨_, rfl, by decide, by decide, by decide, by decide, by decide⟩

theorem helpView_loop_append (pre : List Event) :
    ∀ (screen s : List Op), HelpView.loop screen pre = Outcome.polling s →
      ∀ more, HelpView.loop screen (pre ++ more) = HelpView.loop s more := by
  induction pre with
  | nil =>
    intro screen s h more
    simp only [HelpView.loop] at h
    injection h with h
    rw [← h]; rfl
  | cons ev evs ih =>
    intro screen s h more
    simp only [HelpView.loop] at h
    simp only [List.cons_append, HelpView.loop]
    cases hh : HelpView.handle screen ev with
    | next t => rw [hh] at h; exact ih t s h more
    | ret m scr => rw [hh] at h; exact absurd h (by simp)
    | panic scr => rw [hh] at h; exact absurd h (by simp)

theorem gameOver_loop_append (env : Env) (style : Style) (pre : List Event) :
    ∀ (screen s : List Op), GameOver.loop env style screen pre = Outcome.polling s →
      ∀ more, GameOver.loop env style screen (pre ++ more) = GameOver.loop env style s more := by
  induction pre with
  | nil =>
    intro screen s h more
    simp only [GameOver.loop] at h
    injection h with h
    rw [← h]; rfl
  | cons ev evs ih =>
    intro screen s h more
    simp only [GameOver.loop] at h
    simp only [List.cons_append, GameOver.loop]
    cases hh : GameOver.handle env style screen ev with
    | next t => rw [hh] at h; exact ih t s h more
    | ret m scr => rw [hh] at h; exact absurd h (by simp)
    | panic scr => rw [hh] at h; exact absurd h (by simp)

theorem gameView_loop_append (env : Env) (style : Style) (rtext : List Rune)
    (pre : List Event) :
    ∀ (s0 s : Game), GameView.loop env style rtext s0 pre = Outcome.polling s →
      ∀ more, GameView.loop env style rtext s0 (pre ++ more) =
        GameView.loop env style rtext s more := by
  induction pre with
  | nil =>
    intro s0 s h more
    simp only [GameView.loop] at h
    injection h with h
    rw [← h]; rfl
  | cons ev evs ih =>
    intro s0 s h more
    simp only [GameView.loop] at h
    simp only [List.cons_append, GameView.loop]
    cases hh : GameView.handle env style rtext s0 ev with
    | next t => rw [hh] at h; exact ih _ s h more
    | ret m scr => rw [hh] at h; exact absurd h (by simp)
    | panic scr => rw [hh] at h; exact absurd h (by simp)

theorem helpView_loop_exit_split (events : List Event) :
    ∀ (screen : List Op) (mode : Option Mode) (rest : List Event),
      (HelpView.loop screen events).exit = some (mode, rest) →
      ∃ pre ev s scr, events = pre ++ ev :: rest ∧
        HelpView.loop screen pre = Outcome.polling s ∧
        HelpView.handle s ev = Step.ret mode scr := by
  induction events with
  | nil => intro screen mode rest h; simp [HelpView.loop, Outcome.exit] at h
  | cons ev evs ih =>
    intro screen mode rest h
    simp only [HelpView.loop] at h
    cases hh : HelpView.handle screen ev with
    | next t =>
      rw [hh] at h
      obtain ⟨pre, e, s, scr, he, hp, hr⟩ := ih t mode rest h
      refine ⟨ev :: pre, e, s, scr, by rw [he]; rfl, ?_, hr⟩
      simp only [HelpView.loop, hh]
      exact hp
    | ret m scr =>
      rw [hh] at h
      simp only [Outcome.exit, Option.some.injEq, Prod.mk.injEq] at h
      obtain ⟨hm, hr⟩ := h
      subst hm hr
      exact ⟨[], ev, screen, scr, rfl, rfl, hh⟩
    | panic scr => rw [hh] at h; simp [Outcome.exit] at h

theorem gameOver_loop_exit_split (env : Env) (style : Style) (events : List Event) :
    ∀ (screen : List Op) (mode : Option Mode) (rest : List Event),
      (GameOver.loop env style screen events).exit = some (mode, rest) →
      ∃ pre ev s scr, events = pre ++ ev :: rest ∧
        GameOver.loop env style screen pre = Outcome.polling s ∧
        GameOver.handle env style s ev = Step.ret mode scr := by
  induction events with
  | nil => intro screen mode rest h; simp [GameOver.loop, Outcome.exit] at h
  | cons ev evs ih =>
    intro screen mode rest h
    simp only [GameOver.loop] at h
    cases hh : GameOver.handle env style screen ev with
    | next t =>
      rw [hh] at h
      obtain ⟨pre, e, s, scr, he, hp, hr⟩ := ih t mode rest h
      refine ⟨ev :: pre, e, s, scr, by rw [he]; rfl, ?_, hr⟩
      simp only [GameOver.loop, hh]
      exact hp
    | ret m scr =>
      rw [hh] at h
      simp only [Outcome.exit, Option.some.injEq, Prod.mk.injEq] at h
      obtain ⟨hm, hr⟩ := h
      subst hm hr
      exact ⟨[], ev, screen, scr, rfl, rfl, hh⟩
    | panic scr => rw [hh] at h; simp [Outcome.exit] at h

theorem gameView_loop_exit_split (env : Env) (style : Style) (rtext : List Rune)
    (events : List Event) :
    ∀ (s0 : Game) (mode : Option Mode) (rest : List Event),
      (GameView.loop env style rtext s0 events).exit = some (mode, rest) →
      ∃ pre ev s scr, events = pre ++ ev :: rest ∧
        GameView.loop env style rtext s0 pre = Outcome.polling s ∧
        GameView.handle env style rtext s ev = Step.ret mode scr := by
  induction events with
  | nil => intro s0 mode rest h; simp [GameView.loop, Outcome.exit] at h
  | cons ev evs ih =>
    intro s0 mode rest h
    simp only [GameView.loop] at h
    cases hh : GameView.handle env style rtext s0 ev with
    | next t =>
      rw [hh] at h
      obtain ⟨pre, e, s, scr, he, hp, hr⟩ := ih _ mode rest h
      refine ⟨ev :: pre, e, s, scr, by rw [he]; rfl, ?_, hr⟩
      simp only [GameView.loop, hh]
      exact hp
    | ret m scr =>
      rw [hh] at h
      simp only [Outcome.exit, Option.some.injEq, Prod.mk.injEq] at h
      obtain ⟨hm, hr⟩ := h
      subst hm hr
      exact ⟨[], ev, s0, scr, rfl, rfl, hh⟩
    | panic scr => rw [hh] at h; simp [Outcome.exit] at h

theorem helpView_loop_polling_iff (events : List Event) :
    ∀ (screen : List Op), (∃ s, HelpView.loop screen events = Outcome.polling s) ↔
      ∀ e ∈ events, ∀ c, e ≠ Event.EventKey Key.KeyCtrlC c ∧ e ≠ Event.EventKey Key.KeyCtrlN c := by
  induction events with
  | nil => intro screen; simp [HelpView.loop]
  | cons ev evs ih =>
    intro screen
    simp only [HelpView.loop, List.mem_cons, forall_eq_or_imp]
    cases ev with
    | EventKey key ch =>
      cases key <;> simp [HelpView.handle, ih]
    | EventResize => simp [HelpView.handle, ih]
    | EventOther => simp [HelpView.handle, ih]

theorem gameOver_loop_polling_iff (env : Env) (style : Style) (events : List Event) :
    ∀ (screen : List Op),
      (∃ s, GameOver.loop env style screen events = Outcome.polling s) ↔
      ∀ e ∈ events, ∀ c, e ≠ Event.EventKey Key.KeyCtrlC c ∧ e ≠ Event.EventKey Key.KeyEnter c := by
  induction events with
  | nil => intro screen; simp [GameOver.loop]
  | cons ev evs ih =>
    intro screen
    simp only [GameOver.loop, List.mem_cons, forall_eq_or_imp]
    cases ev with
    | EventKey key ch =>
      cases key <;> simp [GameOver.handle, ih]
    | EventResize => simp [GameOver.handle, ih]
    | EventOther => simp [GameOver.handle, ih]

theorem helpView_loop_exit_iff (screen : List Op) (events : List Event) (mode : Option Mode)
    (rest : List Event) :
    (HelpView.loop screen events).exit = some (mode, rest) ↔
      ∃ pre ch, (∀ e ∈ pre, ∀ c, e ≠ Event.EventKey Key.KeyCtrlC c ∧
          e ≠ Event.EventKey Key.KeyCtrlN c) ∧
        ((events = pre ++ Event.EventKey Key.KeyCtrlC ch :: rest ∧ mode = none) ∨
         (events = pre ++ Event.EventKey Key.KeyCtrlN ch :: rest ∧
            mode = some Mode.GameView)) := by
  constructor
  · intro h
    obtain ⟨pre, ev, s, scr, he, hp, hr⟩ := helpView_loop_exit_split events screen mode rest h
    have hign := (helpView_loop_polling_iff pre screen).mp ⟨s, hp⟩
    rcases (helpView_handle_ret_iff s ev mode).mp ⟨scr, hr⟩ with ⟨⟨ch, hev⟩, hm⟩ | ⟨⟨ch, hev⟩, hm⟩
    · exact ⟨pre, ch, hign, Or.inl ⟨by rw [he, hev], hm⟩⟩
    · exact ⟨pre, ch, hign, Or.inr ⟨by rw [he, hev], hm⟩⟩
  · rintro ⟨pre, ch, hign, h⟩
    obtain ⟨s, hs⟩ := (helpView_loop_polling_iff pre screen).mpr hign
    rcases h with ⟨he, hm⟩ | ⟨he, hm⟩
    · rw [he, hm, helpView_loop_append pre screen s hs]
      rfl
    · rw [he, hm, helpView_loop_append pre screen s hs]
      rfl

theorem gameOver_loop_exit_iff (env : Env) (style : Style) (screen : List Op)
    (events : List Event) (mode : Option Mode) (rest : List Event) :
    (GameOver.loop env style screen events).exit = some (mode, rest) ↔
      ∃ pre ch, (∀ e ∈ pre, ∀ c, e ≠ Event.EventKey Key.KeyCtrlC c ∧
          e ≠ Event.EventKey Key.KeyEnter c) ∧
        ((events = pre ++ Event.EventKey Key.KeyCtrlC ch :: rest ∧ mode = none) ∨
         (events = pre ++ Event.EventKey Key.KeyEnter ch :: rest ∧
            mode = some Mode.HelpView)) := by
  constructor
  · intro h
    obtain ⟨pre, ev, s, scr, he, hp, hr⟩ :=
      gameOver_loop_exit_split env style events screen mode rest h
    have hign := (gameOver_loop_polling_iff env style pre screen).mp ⟨s, hp⟩
    rcases (gameOver_handle_ret_iff env style s ev mode).mp ⟨scr, hr⟩ with
      ⟨⟨ch, hev⟩, hm⟩ | ⟨⟨ch, hev⟩, hm⟩
    · exact ⟨pre, ch, hign, Or.inl ⟨by rw [he, hev], hm⟩⟩
    · exact ⟨pre, ch, hign, Or.inr ⟨by rw [he, hev], hm⟩⟩
  · rintro ⟨pre, ch, hign, h⟩
    obtain ⟨s, hs⟩ := (gameOver_loop_polling_iff env style pre screen).mpr hign
    rcases h with ⟨he, hm⟩ | ⟨he, hm⟩
    · rw [he, hm, gameOver_loop_append env style pre screen s hs]
      rfl
    · rw [he, hm, gameOver_loop_append env style pre screen s hs]
      rfl

theorem gameView_loop_exit_iff (env : Env) (style : Style) (rtext : List Rune) (s0 : Game)
    (events : List Event) (mode : Option Mode) (rest : List Event) :
    (GameView.loop env style rtext s0 events).exit = some (mode, rest) ↔
      ∃ pre s, GameView.loop env style rtext s0 pre = Outcome.polling s ∧
        (((∃ ch, events = pre ++ Event.EventKey Key.KeyCtrlC ch :: rest) ∧ mode = none) ∨
         ((∃ ch, events = pre ++ Event.EventKey Key.KeyCtrlD ch :: rest) ∧
            mode = some Mode.HelpView) ∨
         ((∃ key ch s1, events = pre ++ Event.EventKey key ch :: rest ∧
            GameView.keySwitch env style rtext s key ch = Step.next s1 ∧
            s1.index = (rtext.length : Int)) ∧ mode = some Mode.GameOver)) := by
  constructor
  · intro h
    obtain ⟨pre, ev, s, scr, he, hp, hr⟩ :=
      gameView_loop_exit_split env style rtext events s0 mode rest h
    refine ⟨pre, s, hp, ?_⟩
    rcases (gameView_handle_ret_iff env style rtext s ev mode).mp ⟨scr, hr⟩ with
      ⟨⟨ch, hev⟩, hm⟩ | ⟨⟨ch, hev⟩, hm⟩ | ⟨⟨key, ch, s1, hev, hk, hi⟩, hm⟩
    · exact Or.inl ⟨⟨ch, by rw [he, hev]⟩, hm⟩
    · exact Or.inr (Or.inl ⟨⟨ch, by rw [he, hev]⟩, hm⟩)
    · exact Or.inr (Or.inr ⟨⟨key, ch, s1, by rw [he, hev], hk, hi⟩, hm⟩)
  · rintro ⟨pre, s, hs, h⟩
    have hret : ∀ ev, events = pre ++ ev :: rest →
        (∃ scr, GameView.handle env style rtext s ev = Step.ret mode scr) →
        (GameView.loop env style rtext s0 events).exit = some (mode, rest) := by
      rintro ev he ⟨scr, hscr⟩
      rw [he, gameView_loop_append env style rtext pre s0 s hs]
      simp only [GameView.loop, hscr, Outcome.exit]
    rcases h with ⟨⟨ch, he⟩, hm⟩ | ⟨⟨ch, he⟩, hm⟩ | ⟨⟨key, ch, s1, he, hk, hi⟩, hm⟩
    · exact hret _ he ((gameView_handle_ret_iff env style rtext s _ mode).mpr
        (Or.inl ⟨⟨ch, rfl⟩, hm⟩))
    · exact hret _ he ((gameView_handle_ret_iff env style rtext s _ mode).mpr
        (Or.inr (Or.inl ⟨⟨ch, rfl⟩, hm⟩)))
    · exact hret _ he ((gameView_handle_ret_iff env style rtext s _ mode).mpr
        (Or.inr (Or.inr ⟨⟨key, ch, s1, rfl, hk, hi⟩, hm⟩)))

theorem gameView_loop_resize (env : Env) (style : Style) (rtext : List Rune) (s0 s : Game)
    (events : List Event)
    (h : GameView.loop env style rtext s0 events = Outcome.polling s) :
    ∃ s1, GameView.loop env style rtext s0 (events ++ [Event.EventResize]) =
        Outcome.polling s1 ∧
      s1.index = s.index ∧ s1.pos = s.pos ∧ s1.wordCount = s.wordCount := by
  rw [gameView_loop_append env style rtext events s0 s h]
  exact ⟨_, rfl, rfl, rfl, rfl⟩

/-- C5: the transitions of the three Run methods.  HelpView.Run keeps polling
exactly while no Ctrl-C or Ctrl-N key arrives, and returns nil at the first
Ctrl-C and GameView at the first Ctrl-N; GameOver.Run keeps polling exactly
while no Ctrl-C or Enter key arrives, and returns nil at the first Ctrl-C and
HelpView at the first Enter; GameView.Run, polling in some state, returns nil
on Ctrl-C, HelpView on Ctrl-D, GameOver on a key that leaves the index equal to
the length of the text, and returns in no other way.  In each case the events
after the deciding key are left unread, and the loop iterations have the same
table.  A resize event ends no mode: the run polls again.  Hence whichever mode
runs, on whatever events, a nil result means that the last event read was the
key Ctrl-C. -/
theorem mode_transitions_and_quit (env : Env) (style : Style) (text : Str) :
    (∀ screen ev mode, (∃ scr, HelpView.handle screen ev = Step.ret mode scr) ↔
      ((∃ ch, ev = Event.EventKey Key.KeyCtrlC ch) ∧ mode = none) ∨
      ((∃ ch, ev = Event.EventKey Key.KeyCtrlN ch) ∧ mode = some Mode.GameView)) ∧
    (∀ screen ev mode, (∃ scr, GameOver.handle env style screen ev = Step.ret mode scr) ↔
      ((∃ ch, ev = Event.EventKey Key.KeyCtrlC ch) ∧ mode = none) ∨
      ((∃ ch, ev = Event.EventKey Key.KeyEnter ch) ∧ mode = some Mode.HelpView)) ∧
    (∀ s ev mode, (∃ scr, GameView.handle env style text s ev = Step.ret mode scr) ↔
      ((∃ ch, ev = Event.EventKey Key.KeyCtrlC ch) ∧ mode = none) ∨
      ((∃ ch, ev = Event.EventKey Key.KeyCtrlD ch) ∧ mode = some Mode.HelpView) ∨
      ((∃ key ch s1, ev = Event.EventKey key ch ∧
          GameView.keySwitch env style text s key ch = Step.next s1 ∧
          s1.index = (text.length : Int)) ∧ mode = some Mode.GameOver)) ∧
    (∀ screen, HelpView.handle screen Event.EventResize = Step.next (screen ++ [Op.Sync])) ∧
    (∀ screen, GameOver.handle env style screen Event.EventResize =
      Step.next (screen ++ [Op.Sync])) ∧
    (∀ s, ∃ s1, GameView.handle env style text s Event.EventResize = Step.next s1 ∧
      s1.index = s.index ∧ s1.pos = s.pos ∧ s1.wordCount = s.wordCount) ∧
    (∀ screen events, (∃ s, HelpView.Run env style screen events = Outcome.polling s) ↔
      ∀ e ∈ events, ∀ c, e ≠ Event.EventKey Key.KeyCtrlC c ∧
        e ≠ Event.EventKey Key.KeyCtrlN c) ∧
    (∀ screen events mode rest,
      (HelpView.Run env style screen events).exit = some (mode, rest) ↔
      ∃ pre ch, (∀ e ∈ pre, ∀ c, e ≠ Event.EventKey Key.KeyCtrlC c ∧
          e ≠ Event.EventKey Key.KeyCtrlN c) ∧
        ((events = pre ++ Event.EventKey Key.KeyCtrlC ch :: rest ∧ mode = none) ∨
         (events = pre ++ Event.EventKey Key.KeyCtrlN ch :: rest ∧
            mode = some Mode.GameView))) ∧
    (∀ screen events,
      (∃ s, GameOver.Run env style screen events = Outcome.polling s) ↔
      ∀ e ∈ events, ∀ c, e ≠ Event.EventKey Key.KeyCtrlC c ∧
        e ≠ Event.EventKey Key.KeyEnter c) ∧
    (∀ screen events mode rest,
      (GameOver.Run env style screen events).exit = some (mode, rest) ↔
      ∃ pre ch, (∀ e ∈ pre, ∀ c, e ≠ Event.EventKey Key.KeyCtrlC c ∧
          e ≠ Event.EventKey Key.KeyEnter c) ∧
        ((events = pre ++ Event.EventKey Key.KeyCtrlC ch :: rest ∧ mode = none) ∨
         (events = pre ++ Event.EventKey Key.KeyEnter ch :: rest ∧
            mode = some Mode.HelpView))) ∧
    (∀ screen events mode rest,
      (GameView.Run env style screen text events).exit = some (mode, rest) ↔
      ∃ pre s, GameView.Run env style screen text pre = Outcome.polling s ∧
        (((∃ ch, events = pre ++ Event.EventKey Key.KeyCtrlC ch :: rest) ∧ mode = none) ∨
         ((∃ ch, events = pre ++ Event.EventKey Key.KeyCtrlD ch :: rest) ∧
            mode = some Mode.HelpView) ∨
         ((∃ key ch s1, events = pre ++ Event.EventKey key ch :: rest ∧
            GameView.keySwitch env style text s key ch = Step.next s1 ∧
            s1.index = (text.length : Int)) ∧ mode = some Mode.GameOver))) ∧
    (∀ screen events s, GameView.Run env style screen text events = Outcome.polling s →
      ∃ s1, GameView.Run env style screen text (events ++ [Event.EventResize]) =
          Outcome.polling s1 ∧
        s1.index = s.index ∧ s1.pos = s.pos ∧ s1.wordCount = s.wordCount) ∧
    (∀ (mode : Mode) screen events rest,
      mode.Run env style screen text events = some (none, rest) →
      ∃ pre ch, events = pre ++ Event.EventKey Key.KeyCtrlC ch :: rest) := by
  refine ⟨fun screen ev mode => helpView_handle_ret_iff screen ev mode,
    fun screen ev mode => gameOver_handle_ret_iff env style screen ev mode,
    fun s ev mode => gameView_handle_ret_iff env style text s ev mode,
    fun _ => rfl, fun _ => rfl, fun s => ⟨_, rfl, rfl, rfl, rfl⟩,
    fun screen events => helpView_loop_polling_iff events _,
    fun screen events mode rest => helpView_loop_exit_iff _ events mode rest,
    fun screen events => gameOver_loop_polling_iff env style events _,
    fun screen events mode rest => gameOver_loop_exit_iff env style _ events mode rest,
    fun screen events mode rest => gameView_loop_exit_iff env style text _ events mode rest,
    fun screen events s h => gameView_loop_resize env style text _ s events h, ?_⟩
  intro mode screen events rest h
  cases mode with
  | HelpView =>
    simp only [Mode.Run, HelpView.Run] at h
    cases hl : HelpView.loop (screen ++ [Op.Clear] ++ centerText env style 1 help ++ [Op.Sync])
        events with
    | polling t => rw [hl] at h; simp [Outcome.exit] at h
    | returned m scr r =>
      rw [hl] at h
      simp only [Outcome.exit, Option.some.injEq, Prod.mk.injEq] at h
      obtain ⟨hm, hr⟩ := h
      subst hm hr
      exact helpView_loop_nil events _ scr r hl
    | panicked scr r => rw [hl] at h; simp [Outcome.exit] at h
  | GameView =>
    simp only [Mode.Run, GameView.Run] at h
    cases hl : GameView.loop env style text (GameView.enter env style screen text) events with
    | polling t => rw [hl] at h; simp [Outcome.exit] at h
    | returned m scr r =>
      rw [hl] at h
      simp only [Outcome.exit, Option.some.injEq, Prod.mk.injEq] at h
      obtain ⟨hm, hr⟩ := h
      subst hm hr
      exact gameView_loop_nil env style text events _ scr r hl
    | panicked scr r => rw [hl] at h; simp [Outcome.exit] at h
  | GameOver =>
    simp only [Mode.Run, GameOver.Run] at h
    cases hl : GameOver.loop env style
        (screen ++ centerText env (style.Foreground Color.ColorYellow) 3 gameOverText ++
          [Op.Sync]) events with
    | polling t => rw [hl] at h; simp [Outcome.exit] at h
    | returned m scr r =>
      rw [hl] at h
      simp only [Outcome.exit, Option.some.injEq, Prod.mk.injEq] at h
      obtain ⟨hm, hr⟩ := h
      subst hm hr
      exact gameOver_loop_nil env style events _ scr r hl
    | panicked scr r => rw [hl] at h; simp [Outcome.exit] at h

theorem halvings_le (fuel : Nat) :
    ∀ (k m : Nat), m < 2 ^ (k + 1) → halvings fuel m ≤ k := by
  induction fuel with
  | zero => intro k m _; simp [halvings]
  | succ f ih =>
    intro k m hm
    simp only [halvings]
    split_ifs with h2
    · exact Nat.zero_le k
    · cases k with
      | zero => simp at hm; omega
      | succ k =>
        have hhalf : m / 2 < 2 ^ (k + 1) := by
          rw [Nat.div_lt_iff_lt_mul (by decide)]
          rw [pow_succ] at hm
          exact hm
        have := ih k (m / 2) hhalf
        omega

theorem floorLog2_le (n d : Nat) (hd : 0 < d) (h : n < 2 ^ 53 * d) : floorLog2 n d ≤ 52 := by
  unfold floorLog2
  split_ifs with hdn
  · have hq : n / d < 2 ^ (52 + 1) := (Nat.div_lt_iff_lt_mul hd).mpr h
    have := halvings_le (n / d) 52 (n / d) hq
    unfold natLog2
    omega
  · omega

theorem ulpExp_nonpos (n d : Nat) (hd : 0 < d) (h : n < 2 ^ 53 * d) : ulpExp n d ≤ 0 := by
  have := floorLog2_le n d hd h
  unfold ulpExp
  omega

theorem roundHalfEven_cases (sn sd : Nat) :
    roundHalfEven sn sd = sn / sd ∨ roundHalfEven sn sd = sn / sd + 1 := by
  unfold roundHalfEven
  split_ifs
  · exact Or.inr rfl
  · exact Or.inl rfl

theorem roundNearest_trunc (n d : Nat) (hp : ulpExp n d ≤ 0) :
    (roundNearest n d).trunc = n / d ∨ (roundNearest n d).trunc = n / d + 1 := by
  unfold roundNearest Float64.trunc
  dsimp only
  by_cases h0 : 0 ≤ ulpExp n d
  · have hz : ulpExp n d = 0 := le_antisymm hp h0
    simp only [h0, if_true, hz, Int.toNat_zero, pow_zero, mul_one]
    exact roundHalfEven_cases n d
  · simp only [h0, if_false]
    have hpos : 0 < 2 ^ (-ulpExp n d).toNat := Nat.pow_pos (by decide)
    have hfloor : n * 2 ^ (-ulpExp n d).toNat / d / 2 ^ (-ulpExp n d).toNat = n / d := by
      rw [Nat.div_div_eq_div_mul, Nat.mul_div_mul_right _ _ hpos]
    rcases roundHalfEven_cases (n * 2 ^ (-ulpExp n d).toNat) d with hr | hr
    · rw [hr, hfloor]; exact Or.inl rfl
    · rw [hr]
      have hlo : n * 2 ^ (-ulpExp n d).toNat / d / 2 ^ (-ulpExp n d).toNat ≤
          (n * 2 ^ (-ulpExp n d).toNat / d + 1) / 2 ^ (-ulpExp n d).toNat :=
        Nat.div_le_div_right (Nat.le_succ _)
      have hhi : (n * 2 ^ (-ulpExp n d).toNat / d + 1) / 2 ^ (-ulpExp n d).toNat ≤
          (n * 2 ^ (-ulpExp n d).toNat / d + 2 ^ (-ulpExp n d).toNat) /
            2 ^ (-ulpExp n d).toNat :=
        Nat.div_le_div_right (by omega)
      rw [Nat.add_div_right _ hpos] at hhi
      rw [hfloor] at hlo hhi
      omega

theorem roundNearest_exact (a : Nat) (ha : a < 2 ^ 53) :
    ∃ k : Nat, roundNearest a 1 = ⟨a * 2 ^ k, -(k : Int)⟩ := by
  have hp : ulpExp a 1 ≤ 0 := ulpExp_nonpos a 1 (by decide) (by omega)
  have hround : ∀ sn, roundHalfEven sn 1 = sn := by
    intro sn
    unfold roundHalfEven
    simp [Nat.mod_one]
  refine ⟨(-ulpExp a 1).toNat, ?_⟩
  unfold roundNearest
  dsimp only
  by_cases h0 : 0 ≤ ulpExp a 1
  · have hz : ulpExp a 1 = 0 := le_antisymm hp h0
    rw [hz]
    simp [hround]
  · simp only [h0, if_false, hround]
    congr 1
    omega

theorem wrapInt64_small (x : Int) (h0 : 0 ≤ x) (h1 : x < 2 ^ 53) : wrapInt64 x = x := by
  unfold wrapInt64
  omega

theorem quotient_as_fraction (A k ms : Nat) (es : Int) (hms : 0 < ms) :
    ((if 0 ≤ -(k : Int) - es then A * 2 ^ k * 2 ^ (-(k : Int) - es).toNat else A * 2 ^ k : Nat) : ℚ) /
      ((if 0 ≤ -(k : Int) - es then ms else ms * 2 ^ (-(-(k : Int) - es)).toNat : Nat) : ℚ) =
      (A : ℚ) / ((ms : ℚ) * (2 : ℚ) ^ es) := by
  have hms0 : (ms : ℚ) ≠ 0 := by exact_mod_cast hms.ne'
  have h2 : (2 : ℚ) ≠ 0 := by norm_num
  by_cases he : 0 ≤ -(k : Int) - es
  · simp only [he, if_true]
    obtain ⟨E, hE⟩ := Int.eq_ofNat_of_zero_le he
    have hes : es = -((k + E : Nat) : Int) := by push_cast; omega
    rw [hE, Int.toNat_natCast, hes, zpow_neg, zpow_natCast]
    push_cast
    field_simp
    ring
  · simp only [he, if_false]
    obtain ⟨E, hE⟩ := Int.eq_ofNat_of_zero_le (show 0 ≤ -(-(k : Int) - es) by omega)
    have hes : es = (E : Int) - (k : Int) := by omega
    rw [hE, Int.toNat_natCast, hes, zpow_sub₀ h2, zpow_natCast, zpow_natCast]
    push_cast
    field_simp

theorem roundNearest_trunc_exact (n d : Nat) (hd : 0 < d) (hp : ulpExp n d ≤ 0)
    (hdiv : d ∣ n) : (roundNearest n d).trunc = n / d := by
  have hround : ∀ sn, d ∣ sn → roundHalfEven sn d = sn / d := by
    intro sn hsn
    unfold roundHalfEven
    have hmod : sn % d = 0 := Nat.mod_eq_zero_of_dvd hsn
    rw [hmod]
    have : ¬ (d < 2 * 0 ∨ (2 * 0 = d ∧ sn / d % 2 = 1)) := by omega
    rw [if_neg this]
  unfold roundNearest Float64.trunc
  dsimp only
  by_cases h0 : 0 ≤ ulpExp n d
  · have hz : ulpExp n d = 0 := le_antisymm hp h0
    simp only [h0, if_true, hz, Int.toNat_zero, pow_zero, mul_one]
    exact hround n hdiv
  · simp only [h0, if_false]
    have hpos : 0 < 2 ^ (-ulpExp n d).toNat := Nat.pow_pos (by decide)
    rw [hround _ (Dvd.dvd.mul_right hdiv _), Nat.div_div_eq_div_mul,
      Nat.mul_div_mul_right _ _ hpos]

theorem wpm_eq_trunc (words : Int) (sec : Float64) (hw : 0 < words)
    (hexact : words * 60 < 2 ^ 53) (hs : 0 < sec.mant)
    (hq : ((words * 60 : Int) : ℚ) / sec.toRat < 2 ^ 53) :
    ∃ n d : Nat, 0 < d ∧ n < 2 ^ 53 * d ∧
      (n : ℚ) / (d : ℚ) = ((words * 60 : Int) : ℚ) / sec.toRat ∧
      wpm words sec =
        if (roundNearest n d).trunc < 2 ^ 63 then some ((roundNearest n d).trunc : Int)
        else none := by
  have hwrap : wrapInt64 (words * 60) = words * 60 :=
    wrapInt64_small (words * 60) (by omega) hexact
  have hA : ((words * 60).natAbs : Int) = words * 60 := Int.natAbs_of_nonneg (by omega)
  have hAlt : (words * 60).natAbs < 2 ^ 53 := by omega
  obtain ⟨k, hk⟩ := roundNearest_exact (words * 60).natAbs hAlt
  have hfrac := quotient_as_fraction (words * 60).natAbs k sec.mant sec.exp hs
  have hAq : (((words * 60).natAbs : Nat) : ℚ) = ((words * 60 : Int) : ℚ) := by
    rw [← Int.cast_natCast, hA]
  rw [hAq] at hfrac
  refine ⟨_, _, ?_, ?_, hfrac, ?_⟩
  · split_ifs
    · exact hs
    · exact Nat.mul_pos hs (Nat.pow_pos (by decide))
  · have hd : (0 : ℚ) < ((if 0 ≤ -(k : Int) - sec.exp then sec.mant
        else sec.mant * 2 ^ (-(-(k : Int) - sec.exp)).toNat : Nat) : ℚ) := by
      have : 0 < (if 0 ≤ -(k : Int) - sec.exp then sec.mant
          else sec.mant * 2 ^ (-(-(k : Int) - sec.exp)).toNat : Nat) := by
        split_ifs
        · exact hs
        · exact Nat.mul_pos hs (Nat.pow_pos (by decide))
      exact_mod_cast this
    have h1 := hq
    unfold Float64.toRat at h1
    rw [← hfrac, div_lt_iff₀ hd] at h1
    exact_mod_cast h1
  · unfold wpm
    dsimp only
    rw [hwrap, hk]
    have hne : ¬ sec.mant = 0 := by omega
    have hne2 : ¬ words * 60 = 0 := by omega
    have hneg : ¬ words * 60 < 0 := by omega
    simp only [hne, hne2, hneg, if_false]

theorem wpm_zero_words (sec : Float64) (hs : 0 < sec.mant) : wpm 0 sec = some 0 := by
  have hne : ¬ sec.mant = 0 := by omega
  have hwz : wrapInt64 (0 * 60) = 0 := by decide
  unfold wpm
  dsimp only
  rw [hwz, if_neg hne, if_pos rfl]

/-- C9 (as the code has it): for a word count words >= 0 with words*60 below
2^53 and a positive float64 number sec of elapsed seconds with words*60/sec
below 2^53, wpm is floor(words*60/sec) or one more, because the float64
quotient is rounded to nearest before it is truncated; it is the floor when
the quotient is an integer, and 10 words over 60 seconds give 10. -/
theorem wpm_floor_or_one_more (words : Int) (sec : Float64) (hw : 0 ≤ words)
    (hexact : words * 60 < 2 ^ 53) (hs : 0 < sec.mant)
    (hq : ((words * 60 : Int) : ℚ) / sec.toRat < 2 ^ 53) :
    (wpm words sec = some ⌊((words * 60 : Int) : ℚ) / sec.toRat⌋ ∨
      wpm words sec = some (⌊((words * 60 : Int) : ℚ) / sec.toRat⌋ + 1)) ∧
    ((∃ z : Int, ((words * 60 : Int) : ℚ) / sec.toRat = (z : ℚ)) →
      wpm words sec = some ⌊((words * 60 : Int) : ℚ) / sec.toRat⌋) ∧
    wpm 10 ⟨60, 0⟩ = some 10 := by
  refine ⟨?_, ?_, by decide⟩
  · rcases eq_or_lt_of_le hw with h0 | hpos
    · subst h0
      left
      rw [wpm_zero_words sec hs]
      simp
    · obtain ⟨n, d, hd, hnd, hfrac, hwpm⟩ := wpm_eq_trunc words sec hpos hexact hs hq
      have hfloor : ⌊((words * 60 : Int) : ℚ) / sec.toRat⌋ = ((n / d : Nat) : Int) := by
        rw [← hfrac]; exact Rat.floor_natCast_div_natCast n d
      have hlt : n / d < 2 ^ 53 := (Nat.div_lt_iff_lt_mul hd).mpr hnd
      have hp := ulpExp_nonpos n d hd hnd
      rw [hwpm, hfloor]
      rcases roundNearest_trunc n d hp with ht | ht
      · left
        rw [ht, if_pos (by omega)]
      · right
        rw [ht, if_pos (by omega)]
        push_cast
        rfl
  · rintro ⟨z, hz⟩
    rcases eq_or_lt_of_le hw with h0 | hpos
    · subst h0
      rw [wpm_zero_words sec hs]
      simp
    · obtain ⟨n, d, hd, hnd, hfrac, hwpm⟩ := wpm_eq_trunc words sec hpos hexact hs hq
      have hfloor : ⌊((words * 60 : Int) : ℚ) / sec.toRat⌋ = ((n / d : Nat) : Int) := by
        rw [← hfrac]; exact Rat.floor_natCast_div_natCast n d
      have hlt : n / d < 2 ^ 53 := (Nat.div_lt_iff_lt_mul hd).mpr hnd
      have hp := ulpExp_nonpos n d hd hnd
      have hdq : (d : ℚ) ≠ 0 := by exact_mod_cast hd.ne'
      have hnz : (n : ℚ) = (z : ℚ) * (d : ℚ) := by
        rw [← hz, ← hfrac]; field_simp
      have hnz2 : (n : Int) = z * (d : Int) := by exact_mod_cast hnz
      have hdvd : d ∣ n := by
        have : (d : Int) ∣ (n : Int) := ⟨z, by rw [hnz2, mul_comm]⟩
        exact Int.natCast_dvd_natCast.mp this
      rw [hwpm, hfloor, roundNearest_trunc_exact n d hd hp hdvd, if_pos (by omega)]

/-- C9 at 3 words over one second and a half. -/
theorem wpm_floor_or_one_more_witness :
    (0 : Int) ≤ 3 ∧ (3 : Int) * 60 < 2 ^ 53 ∧ 0 < (⟨3, -1⟩ : Float64).mant ∧
    (((3 : Int) * 60 : Int) : ℚ) / (⟨3, -1⟩ : Float64).toRat < 2 ^ 53 ∧
    (wpm 3 ⟨3, -1⟩ = some ⌊(((3 : Int) * 60 : Int) : ℚ) / (⟨3, -1⟩ : Float64).toRat⌋ ∨
      wpm 3 ⟨3, -1⟩ =
        some (⌊(((3 : Int) * 60 : Int) : ℚ) / (⟨3, -1⟩ : Float64).toRat⌋ + 1)) :=
  ⟨by decide, by decide, by decide, by simp only [Float64.toRat]; norm_num,
    (wpm_floor_or_one_more 3 ⟨3, -1⟩ (by decide) (by decide) (by decide)
      (by simp only [Float64.toRat]; norm_num)).1⟩

/-- C9 as stated fails: one millisecond is the float64 1152921504606847 * 2^-60,
a little more than 0.001, so 60/sec lies below 60000 and its floor is 59999,
but the float64 quotient rounds to 60000 and wpm returns 60000. -/
theorem wpm_one_word_one_millisecond :
    wpm 1 ⟨1152921504606847, -60⟩ = some 60000 ∧
    ⌊(((1 : Int) * 60 : Int) : ℚ) / (⟨1152921504606847, -60⟩ : Float64).toRat⌋ = 59999 ∧
    (1152921504606847 : Nat) < 2 ^ 53 := by
  refine ⟨by decide, ?_, by decide⟩
  rw [Int.floor_eq_iff]
  simp only [Float64.toRat]
  norm_num

end Typer
